import Mathlib

/-!
Verification development for the atomic-agents demo repository.

The repository consists of two near-duplicate chat-loop scripts
(`A_deep_dive_into_atomic_agents_BaseAgent.py` and its `-BaseAgent` twin,
byte-for-byte equivalent in behavior) and a calculator tool script
(`A_deep_dive_into_atomic_agents-BaseTool.py`).

The scripts delegate to external libraries (`sympy`, `atomic_agents`) that are
not part of the repository; those parts are modelled from the specification,
each marked `Modelled from the spec:` in its doc comment.  Everything taken
from the scripts themselves (the chat loop, the API-key check, the structure
of `CalculatorTool.run`, the concrete prompt/seed data) is embedded directly.

All computations are written over kernel-reducible data (Int/Nat pairs for
rationals, explicit character lists for strings) so that concrete witnesses
evaluate by `decide` / `rfl`.
-/

deriving instance DecidableEq for Except

namespace AtomicDemo

/-! ### Unnormalized rational pairs

`sympy` evaluates expressions over exact rationals before printing a
15-significant-digit float.  We model exact rational arithmetic with
unnormalized pairs (integer numerator, natural denominator); `val` maps a
pair to the mathematical rational it denotes. -/

structure PreRat where
  num : Int
  den : Nat
  deriving DecidableEq, Repr

/-- The rational number denoted by a pair. -/
def val (x : PreRat) : ℚ := (x.num : ℚ) / (x.den : ℚ)

def padd (x y : PreRat) : PreRat := ⟨x.num * y.den + y.num * x.den, x.den * y.den⟩

def psub (x y : PreRat) : PreRat := ⟨x.num * y.den - y.num * x.den, x.den * y.den⟩

def pmul (x y : PreRat) : PreRat := ⟨x.num * y.num, x.den * y.den⟩

def pneg (x : PreRat) : PreRat := ⟨-x.num, x.den⟩

def pinv (x : PreRat) : PreRat := ⟨(x.den : Int) * x.num.sign, x.num.natAbs⟩

def pdiv (x y : PreRat) : PreRat := pmul x (pinv y)

def ppowNat (x : PreRat) (n : Nat) : PreRat := ⟨x.num ^ n, x.den ^ n⟩

def pzpow (x : PreRat) (k : Int) : PreRat :=
  if 0 ≤ k then ppowNat x k.toNat else ppowNat (pinv x) (-k).toNat

theorem val_padd (x y : PreRat) (hx : x.den ≠ 0) (hy : y.den ≠ 0) :
    val (padd x y) = val x + val y := by
  unfold val padd
  have hx' : (x.den : ℚ) ≠ 0 := Nat.cast_ne_zero.mpr hx
  have hy' : (y.den : ℚ) ≠ 0 := Nat.cast_ne_zero.mpr hy
  push_cast
  field_simp
  try ring

theorem val_psub (x y : PreRat) (hx : x.den ≠ 0) (hy : y.den ≠ 0) :
    val (psub x y) = val x - val y := by
  unfold val psub
  have hx' : (x.den : ℚ) ≠ 0 := Nat.cast_ne_zero.mpr hx
  have hy' : (y.den : ℚ) ≠ 0 := Nat.cast_ne_zero.mpr hy
  push_cast
  field_simp
  try ring

theorem val_pmul (x y : PreRat) :
    val (pmul x y) = val x * val y := by
  unfold val pmul
  push_cast
  rw [div_mul_div_comm]

theorem val_pneg (x : PreRat) : val (pneg x) = -val x := by
  unfold val pneg
  push_cast
  rw [neg_div]

theorem val_pinv (x : PreRat) : val (pinv x) = (val x)⁻¹ := by
  unfold val pinv
  rcases lt_trichotomy x.num 0 with h | h | h
  · have habs : (x.num.natAbs : ℚ) = -(x.num : ℚ) := by
      rw [Int.cast_natAbs, abs_of_neg h]
      push_cast
      ring
    rw [Int.sign_eq_neg_one_of_neg h, inv_div]
    push_cast [habs]
    rw [mul_neg_one, neg_div_neg_eq]
  · simp [h, val]
  · have habs : (x.num.natAbs : ℚ) = (x.num : ℚ) := by
      rw [Int.cast_natAbs, abs_of_pos h]
    rw [Int.sign_eq_one_of_pos h, inv_div]
    push_cast [habs]
    rw [mul_one]

theorem val_pdiv (x y : PreRat) :
    val (pdiv x y) = val x / val y := by
  rw [pdiv, val_pmul, val_pinv y, div_eq_mul_inv]

theorem val_ppowNat (x : PreRat) (n : Nat) :
    val (ppowNat x n) = (val x) ^ n := by
  unfold val ppowNat
  push_cast
  rw [div_pow]

theorem val_pzpow (x : PreRat) (k : Int) :
    val (pzpow x k) = (val x) ^ k := by
  unfold pzpow
  by_cases h : 0 ≤ k
  · rw [if_pos h, val_ppowNat, ← zpow_natCast, Int.toNat_of_nonneg h]
  · rw [if_neg h, val_ppowNat, val_pinv x, inv_pow, ← zpow_natCast,
      ← zpow_neg, Int.toNat_of_nonneg (by omega : (0:ℤ) ≤ -k), neg_neg]

theorem den_padd (x y : PreRat) (hx : x.den ≠ 0) (hy : y.den ≠ 0) :
    (padd x y).den ≠ 0 := Nat.mul_ne_zero hx hy

theorem den_psub (x y : PreRat) (hx : x.den ≠ 0) (hy : y.den ≠ 0) :
    (psub x y).den ≠ 0 := Nat.mul_ne_zero hx hy

theorem den_pmul (x y : PreRat) (hx : x.den ≠ 0) (hy : y.den ≠ 0) :
    (pmul x y).den ≠ 0 := Nat.mul_ne_zero hx hy

theorem den_pinv (x : PreRat) (hx : x.num ≠ 0) : (pinv x).den ≠ 0 := by
  simpa [pinv] using Int.natAbs_ne_zero.mpr hx

theorem den_pdiv (x y : PreRat) (hx : x.den ≠ 0) (hy : y.num ≠ 0) :
    (pdiv x y).den ≠ 0 := Nat.mul_ne_zero hx (den_pinv y hy)

theorem den_ppowNat (x : PreRat) (n : Nat) (hx : x.den ≠ 0) :
    (ppowNat x n).den ≠ 0 := pow_ne_zero n hx

theorem den_pzpow (x : PreRat) (k : Int) (hx : x.den ≠ 0)
    (hnum : k < 0 → x.num ≠ 0) : (pzpow x k).den ≠ 0 := by
  unfold pzpow
  by_cases h : 0 ≤ k
  · rw [if_pos h]; exact den_ppowNat x _ hx
  · rw [if_neg h]
    exact den_ppowNat _ _ (den_pinv x (hnum (by omega)))

theorem val_eq_zero_iff (x : PreRat) (hx : x.den ≠ 0) :
    val x = 0 ↔ x.num = 0 := by
  unfold val
  rw [div_eq_zero_iff]
  constructor
  · rintro (h | h)
    · exact_mod_cast h
    · exact absurd (Nat.cast_injective h) hx
  · intro h
    left
    exact_mod_cast h

/-! ### Decimal digit count and digit lists (kernel-computable) -/

def ndigitsAux : Nat → Nat → Nat
  | 0, _ => 0
  | f + 1, n => if n = 0 then 0 else ndigitsAux f (n / 10) + 1

/-- Number of decimal digits of `n` (0 for 0). -/
def ndigits (n : Nat) : Nat := ndigitsAux n n

theorem ndigitsAux_zero (f : Nat) : ndigitsAux f 0 = 0 := by
  cases f <;> simp [ndigitsAux]

theorem ndigitsAux_bounds :
    ∀ f n, n ≤ f → n ≠ 0 →
      10 ^ (ndigitsAux f n - 1) ≤ n ∧ n < 10 ^ ndigitsAux f n := by
  intro f
  induction f with
  | zero => intro n hn h0; omega
  | succ f ih =>
    intro n hn h0
    rw [ndigitsAux, if_neg h0]
    by_cases hsmall : n < 10
    · have hq : n / 10 = 0 := Nat.div_eq_of_lt hsmall
      rw [hq, ndigitsAux_zero]
      simp
      omega
    · have hq0 : n / 10 ≠ 0 := by
        intro h
        have := Nat.div_eq_of_lt (by omega : n < 10)
        omega
      have hqf : n / 10 ≤ f := by
        have : n / 10 < n := Nat.div_lt_self (by omega) (by omega)
        omega
      obtain ⟨hlo, hhi⟩ := ih (n / 10) hqf hq0
      set m := ndigitsAux f (n / 10) with hm
      have hm1 : 1 ≤ m := by
        by_contra h
        have : m = 0 := by omega
        rw [this] at hhi
        simp at hhi
        omega
      constructor
      · have h1 : 10 ^ m = 10 ^ (m - 1) * 10 := by
          rw [← Nat.pow_succ]
          congr 1
          omega
        have h2 : 10 ^ (m - 1) * 10 ≤ (n / 10) * 10 :=
          Nat.mul_le_mul_right 10 hlo
        have h3 : (n / 10) * 10 ≤ n := by
          rw [Nat.mul_comm]
          exact Nat.mul_div_le n 10
        simpa [h1] using le_trans h2 h3
      · have h1 : n < 10 * (n / 10 + 1) := by
          have := Nat.div_add_mod n 10
          have : n % 10 < 10 := Nat.mod_lt n (by omega)
          omega
        have h2 : n / 10 + 1 ≤ 10 ^ m := hhi
        calc n < 10 * (n / 10 + 1) := h1
          _ ≤ 10 * 10 ^ m := Nat.mul_le_mul_left 10 h2
          _ = 10 ^ (m + 1) := by rw [Nat.pow_succ, Nat.mul_comm]

theorem ndigits_bounds (n : Nat) (h0 : n ≠ 0) :
    10 ^ (ndigits n - 1) ≤ n ∧ n < 10 ^ ndigits n :=
  ndigitsAux_bounds n n le_rfl h0

/-- Big-endian list of the low `k` decimal digits of `m`. -/
def digitsBE : Nat → Nat → List Nat
  | 0, _ => []
  | k + 1, m => digitsBE k (m / 10) ++ [m % 10]

/-- Value of a big-endian decimal digit list. -/
def ofBE (l : List Nat) : Nat := l.foldl (fun a d => 10 * a + d) 0

theorem digitsBE_length (k m : Nat) : (digitsBE k m).length = k := by
  induction k generalizing m with
  | zero => rfl
  | succ k ih => simp [digitsBE, ih]

theorem foldl_digit_append (l : List Nat) (a d : Nat) :
    (l ++ [d]).foldl (fun a d => 10 * a + d) a =
      10 * l.foldl (fun a d => 10 * a + d) a + d := by
  rw [List.foldl_append]
  rfl

theorem mod_ten_pow_succ (m k : Nat) :
    m % 10 ^ (k + 1) = 10 * (m / 10 % 10 ^ k) + m % 10 := by
  set q := m / 10 with hqdef
  have h1 : q = 10 ^ k * (q / 10 ^ k) + q % 10 ^ k := (Nat.div_add_mod q (10 ^ k)).symm
  have hpow : (10:Nat) ^ (k + 1) = 10 * 10 ^ k := by rw [Nat.pow_succ, Nat.mul_comm]
  have hdm : 10 * q + m % 10 = m := Nat.div_add_mod m 10
  have hm : m = (10 * 10 ^ k) * (q / 10 ^ k) + (10 * (q % 10 ^ k) + m % 10) := by
    calc m = 10 * q + m % 10 := hdm.symm
      _ = 10 * (10 ^ k * (q / 10 ^ k) + q % 10 ^ k) + m % 10 := by rw [← h1]
      _ = (10 * 10 ^ k) * (q / 10 ^ k) + (10 * (q % 10 ^ k) + m % 10) := by ring
  rw [hpow]
  conv_lhs => rw [hm]
  rw [Nat.mul_add_mod]
  apply Nat.mod_eq_of_lt
  have h2 : q % 10 ^ k < 10 ^ k := Nat.mod_lt _ (pow_pos (by omega) k)
  have h3 : m % 10 < 10 := Nat.mod_lt m (by omega)
  omega

theorem ofBE_digitsBE (k m : Nat) : ofBE (digitsBE k m) = m % 10 ^ k := by
  induction k generalizing m with
  | zero => simp [digitsBE, ofBE, Nat.mod_one]
  | succ k ih =>
    rw [digitsBE]
    show (digitsBE k (m / 10) ++ [m % 10]).foldl _ 0 = _
    rw [foldl_digit_append]
    have : (digitsBE k (m / 10)).foldl (fun a d => 10 * a + d) 0 = m / 10 % 10 ^ k :=
      ih (m / 10)
    rw [this, mod_ten_pow_succ]

theorem digitsBE_lt_ten (k m : Nat) : ∀ d ∈ digitsBE k m, d < 10 := by
  induction k generalizing m with
  | zero => intro d h; simp [digitsBE] at h
  | succ k ih =>
    intro d h
    rw [digitsBE] at h
    rcases List.mem_append.mp h with h | h
    · exact ih (m / 10) d h
    · have : d = m % 10 := by simpa using h
      rw [this]
      exact Nat.mod_lt m (by omega)

theorem ndigits_pos (n : Nat) (h0 : n ≠ 0) : 1 ≤ ndigits n := by
  by_contra h
  have hz : ndigits n = 0 := by omega
  have := (ndigits_bounds n h0).2
  rw [hz] at this
  simp at this
  omega

/-! ### Decimal exponent of a positive fraction -/

/-- Test whether `10 ^ c ≤ a / b`, for positive naturals `a`, `b`. -/
def gePow10 (a b : Nat) (c : Int) : Bool :=
  if 0 ≤ c then decide (b * 10 ^ c.toNat ≤ a) else decide (b ≤ a * 10 ^ (-c).toNat)

/-- The decimal exponent of `a / b`: the unique `e` with `10^(e-1) ≤ a/b < 10^e`. -/
def exp10 (a b : Nat) : Int :=
  if gePow10 a b ((ndigits a : Int) - (ndigits b : Int)) then
    ((ndigits a : Int) - (ndigits b : Int)) + 1
  else ((ndigits a : Int) - (ndigits b : Int))

theorem cast_pow_ten (n : Nat) : ((10 ^ n : ℕ) : ℚ) = (10 : ℚ) ^ (n : ℤ) := by
  push_cast
  rw [zpow_natCast]

theorem gePow10_iff (a b : Nat) (c : Int) (hb : b ≠ 0) :
    gePow10 a b c = true ↔ (10 : ℚ) ^ c ≤ (a : ℚ) / (b : ℚ) := by
  have hbQ : (0 : ℚ) < b := by
    exact_mod_cast Nat.pos_of_ne_zero hb
  unfold gePow10
  by_cases h : 0 ≤ c
  · rw [if_pos h, decide_eq_true_eq, le_div_iff₀ hbQ]
    have hp : (10 : ℚ) ^ c = ((10 ^ c.toNat : ℕ) : ℚ) := by
      rw [cast_pow_ten]
      congr 1
      omega
    rw [hp]
    constructor
    · intro hle
      have h2 : ((b * 10 ^ c.toNat : ℕ) : ℚ) ≤ (a : ℚ) := by exact_mod_cast hle
      have h3 : ((b * 10 ^ c.toNat : ℕ) : ℚ) = ((10 ^ c.toNat : ℕ) : ℚ) * b := by
        push_cast
        ring
      rw [← h3]
      exact h2
    · intro hle
      have h3 : ((b * 10 ^ c.toNat : ℕ) : ℚ) = ((10 ^ c.toNat : ℕ) : ℚ) * b := by
        push_cast
        ring
      have h2 : ((b * 10 ^ c.toNat : ℕ) : ℚ) ≤ (a : ℚ) := by rw [h3]; exact hle
      exact_mod_cast h2
  · rw [if_neg h, decide_eq_true_eq]
    have hpQ : (0 : ℚ) < ((10 ^ (-c).toNat : ℕ) : ℚ) := by positivity
    have hc : c = -(((-c).toNat : ℕ) : ℤ) := by omega
    have hpow : (10 : ℚ) ^ c = 1 / ((10 ^ (-c).toNat : ℕ) : ℚ) := by
      nth_rewrite 1 [hc]
      rw [zpow_neg, cast_pow_ten, one_div]
    rw [hpow, div_le_div_iff hpQ hbQ, one_mul]
    constructor
    · intro hle
      exact_mod_cast hle
    · intro hle
      exact_mod_cast hle

theorem exp10_bounds (a b : Nat) (ha : a ≠ 0) (hb : b ≠ 0) :
    (10 : ℚ) ^ (exp10 a b - 1) ≤ (a : ℚ) / (b : ℚ) ∧
      (a : ℚ) / (b : ℚ) < (10 : ℚ) ^ exp10 a b := by
  have hbQ : (0 : ℚ) < b := by exact_mod_cast Nat.pos_of_ne_zero hb
  have haQ : (0 : ℚ) < a := by exact_mod_cast Nat.pos_of_ne_zero ha
  obtain ⟨haLo, haHi⟩ := ndigits_bounds a ha
  obtain ⟨hbLo, hbHi⟩ := ndigits_bounds b hb
  have hda := ndigits_pos a ha
  have hdb := ndigits_pos b hb
  set da := ndigits a with hdaDef
  set db := ndigits b with hdbDef
  set c : Int := (da : Int) - (db : Int) with hcDef
  have hlow : (10 : ℚ) ^ (c - 1) ≤ (a : ℚ) / (b : ℚ) := by
    have h1 : ((10 ^ (da - 1) : ℕ) : ℚ) ≤ (a : ℚ) := by exact_mod_cast haLo
    have h2 : (b : ℚ) ≤ ((10 ^ db : ℕ) : ℚ) := by exact_mod_cast hbHi.le
    have hsplit : (10 : ℚ) ^ (c - 1) = ((10 ^ (da - 1) : ℕ) : ℚ) / ((10 ^ db : ℕ) : ℚ) := by
      rw [cast_pow_ten, cast_pow_ten, ← zpow_sub₀ (by norm_num : (10:ℚ) ≠ 0)]
      congr 1
      omega
    rw [hsplit, div_le_div_iff (by positivity) hbQ]
    exact mul_le_mul h1 h2 hbQ.le haQ.le
  have hhigh : (a : ℚ) / (b : ℚ) < (10 : ℚ) ^ (c + 1) := by
    have h1 : (a : ℚ) < ((10 ^ da : ℕ) : ℚ) := by exact_mod_cast haHi
    have h2 : ((10 ^ (db - 1) : ℕ) : ℚ) ≤ (b : ℚ) := by exact_mod_cast hbLo
    have hsplit : (10 : ℚ) ^ (c + 1) = ((10 ^ da : ℕ) : ℚ) / ((10 ^ (db - 1) : ℕ) : ℚ) := by
      rw [cast_pow_ten, cast_pow_ten, ← zpow_sub₀ (by norm_num : (10:ℚ) ≠ 0)]
      congr 1
      omega
    rw [hsplit, div_lt_div_iff hbQ (by positivity)]
    have step1 : (a : ℚ) * ((10 ^ (db - 1) : ℕ) : ℚ) <
        ((10 ^ da : ℕ) : ℚ) * ((10 ^ (db - 1) : ℕ) : ℚ) :=
      mul_lt_mul_of_pos_right h1 (by positivity)
    have step2 : ((10 ^ da : ℕ) : ℚ) * ((10 ^ (db - 1) : ℕ) : ℚ) ≤
        ((10 ^ da : ℕ) : ℚ) * b :=
      mul_le_mul_of_nonneg_left h2 (by positivity)
    exact lt_of_lt_of_le step1 step2
  have hexp : exp10 a b = if gePow10 a b c then c + 1 else c := rfl
  rw [hexp]
  by_cases hge : gePow10 a b c = true
  · rw [if_pos hge]
    refine ⟨?_, hhigh⟩
    have h := (gePow10_iff a b c hb).mp hge
    simpa using h
  · rw [if_neg hge]
    refine ⟨hlow, ?_⟩
    have h := (gePow10_iff a b c hb).not.mp hge
    exact lt_of_not_le (fun hcon => h hcon)

/-! ### Rounding a nonnegative fraction to the nearest integer -/

/-- Compute `round (p / q)` with natural-number division. -/
def roundNat (p q : Nat) : Nat := (2 * p + q) / (2 * q)

theorem roundNat_eq (p q : Nat) (hq : q ≠ 0) :
    (roundNat p q : ℤ) = round ((p : ℚ) / (q : ℚ)) := by
  have hqQ : (0 : ℚ) < q := by exact_mod_cast Nat.pos_of_ne_zero hq
  rw [round_eq]
  have harg : (p : ℚ) / (q : ℚ) + 1 / 2 = ((2 * p + q : ℕ) : ℚ) / ((2 * q : ℕ) : ℚ) := by
    push_cast
    field_simp
    ring
  rw [harg]
  have hfloor : ⌊(((2 * p + q : ℕ) : ℤ) : ℚ) / ((2 * q : ℕ) : ℚ)⌋ =
      ((2 * p + q : ℕ) : ℤ) / ((2 * q : ℕ) : ℤ) := Rat.floor_intCast_div_natCast _ _
  have hcast : (((2 * p + q : ℕ) : ℤ) : ℚ) = ((2 * p + q : ℕ) : ℚ) := by push_cast; ring
  rw [hcast] at hfloor
  rw [hfloor, roundNat]
  push_cast
  ring

/-! ### Mantissa and exponent of the 15-significant-digit rendering -/

def scaledNum (a b : Nat) : Nat :=
  if exp10 a b ≤ 15 then a * 10 ^ ((15 : Int) - exp10 a b).toNat else a

def scaledDen (a b : Nat) : Nat :=
  if exp10 a b ≤ 15 then b else b * 10 ^ (exp10 a b - 15).toNat

/-- The 15-significant-digit mantissa and decimal exponent of the positive
fraction `a / b`, rounding half-up as the modelled float printing does.
The second component `e` is the position of the decimal point: the value
rendered is `m * 10 ^ (e - 15)` with `10^14 ≤ m < 10^15`. -/
def mantissaExp (a b : Nat) : Nat × Int :=
  if roundNat (scaledNum a b) (scaledDen a b) = 10 ^ 15 then
    (10 ^ 14, exp10 a b + 1)
  else (roundNat (scaledNum a b) (scaledDen a b), exp10 a b)

theorem scaledDen_ne_zero (a b : Nat) (hb : b ≠ 0) : scaledDen a b ≠ 0 := by
  unfold scaledDen
  by_cases h : exp10 a b ≤ 15
  · rw [if_pos h]; exact hb
  · rw [if_neg h]
    exact Nat.mul_ne_zero hb (pow_ne_zero _ (by omega))

theorem scaled_val (a b : Nat) (hb : b ≠ 0) :
    ((scaledNum a b : ℕ) : ℚ) / ((scaledDen a b : ℕ) : ℚ) =
      ((a : ℚ) / (b : ℚ)) * (10 : ℚ) ^ ((15 : ℤ) - exp10 a b) := by
  have hbQ : (0 : ℚ) < b := by exact_mod_cast Nat.pos_of_ne_zero hb
  unfold scaledNum scaledDen
  have hten : (10 : ℚ) ≠ 0 := by norm_num
  by_cases h : exp10 a b ≤ 15
  · rw [if_pos h, if_pos h]
    have ht : (((15 : Int) - exp10 a b).toNat : ℤ) = 15 - exp10 a b := by omega
    push_cast
    rw [← zpow_natCast (10 : ℚ) ((15 - exp10 a b).toNat), ht]
    field_simp
    try ring
  · rw [if_neg h, if_neg h]
    have ht : ((exp10 a b - 15).toNat : ℤ) = exp10 a b - 15 := by omega
    push_cast
    rw [← zpow_natCast (10 : ℚ) ((exp10 a b - 15).toNat), ht]
    have hPQ : (10 : ℚ) ^ (exp10 a b - (15 : ℤ)) * (10 : ℚ) ^ ((15 : ℤ) - exp10 a b) = 1 := by
      rw [← zpow_add₀ hten]
      norm_num
    rw [div_mul_eq_mul_div, div_eq_div_iff (by positivity) hbQ.ne']
    have hrearr : (a : ℚ) * (10 : ℚ) ^ ((15 : ℤ) - exp10 a b) *
        ((b : ℚ) * (10 : ℚ) ^ (exp10 a b - (15 : ℤ))) =
        (a : ℚ) * (b : ℚ) *
          ((10 : ℚ) ^ (exp10 a b - (15 : ℤ)) * (10 : ℚ) ^ ((15 : ℤ) - exp10 a b)) := by
      ring
    rw [hrearr, hPQ, mul_one]

theorem mantissaExp_spec (a b : Nat) (ha : a ≠ 0) (hb : b ≠ 0) :
    10 ^ 14 ≤ (mantissaExp a b).1 ∧ (mantissaExp a b).1 < 10 ^ 15 ∧
      |((mantissaExp a b).1 : ℚ) * (10 : ℚ) ^ ((mantissaExp a b).2 - 15) -
          (a : ℚ) / (b : ℚ)| ≤ ((a : ℚ) / (b : ℚ)) / 10 ^ 14 := by
  have hbQ : (0 : ℚ) < b := by exact_mod_cast Nat.pos_of_ne_zero hb
  have haQ : (0 : ℚ) < a := by exact_mod_cast Nat.pos_of_ne_zero ha
  have hq0 : (0 : ℚ) < (a : ℚ) / (b : ℚ) := by positivity
  obtain ⟨hlo, hhi⟩ := exp10_bounds a b ha hb
  set e0 := exp10 a b with he0
  set x : ℚ := ((a : ℚ) / (b : ℚ)) * (10 : ℚ) ^ ((15 : ℤ) - e0) with hx
  have hten : (10 : ℚ) ≠ 0 := by norm_num
  have hxpos : (0 : ℚ) < (10 : ℚ) ^ ((15 : ℤ) - e0) := by positivity
  -- x lies in [10^14, 10^15).
  have hxlo : (10 : ℚ) ^ (14 : ℤ) ≤ x := by
    have h1 : (10 : ℚ) ^ (e0 - 1) * (10 : ℚ) ^ ((15 : ℤ) - e0) ≤ x :=
      mul_le_mul_of_nonneg_right hlo hxpos.le
    calc (10 : ℚ) ^ (14 : ℤ) = (10 : ℚ) ^ (e0 - 1) * (10 : ℚ) ^ ((15 : ℤ) - e0) := by
          rw [← zpow_add₀ hten]
          congr 1
          omega
      _ ≤ x := h1
  have hxhi : x < (10 : ℚ) ^ (15 : ℤ) := by
    have h1 : x < (10 : ℚ) ^ e0 * (10 : ℚ) ^ ((15 : ℤ) - e0) :=
      mul_lt_mul_of_pos_right hhi hxpos
    calc x < (10 : ℚ) ^ e0 * (10 : ℚ) ^ ((15 : ℤ) - e0) := h1
      _ = (10 : ℚ) ^ (15 : ℤ) := by
          rw [← zpow_add₀ hten]
          congr 1
          omega
  -- The rounded mantissa, as a rational.
  set m0 := roundNat (scaledNum a b) (scaledDen a b) with hm0
  have hm0Q : (m0 : ℚ) = ((round x : ℤ) : ℚ) := by
    have h1 := roundNat_eq (scaledNum a b) (scaledDen a b) (scaledDen_ne_zero a b hb)
    have h2 : ((scaledNum a b : ℕ) : ℚ) / ((scaledDen a b : ℕ) : ℚ) = x :=
      scaled_val a b hb
    rw [h2] at h1
    exact_mod_cast h1
  have hclose : |x - (m0 : ℚ)| ≤ 1 / 2 := by
    rw [hm0Q]
    exact abs_sub_round x
  -- Integer bounds for the rounded mantissa.
  have hm0lo : 10 ^ 14 ≤ m0 := by
    have h1 : (10 : ℚ) ^ (14 : ℤ) - 1 < (m0 : ℚ) := by
      have := abs_le.mp hclose
      have h2 : x - 1 / 2 ≤ (m0 : ℚ) := by linarith [this.1]
      linarith [hxlo]
    have h3 : ((10 ^ 14 - 1 : ℕ) : ℚ) < (m0 : ℚ) := by
      have : ((10 ^ 14 - 1 : ℕ) : ℚ) = (10 : ℚ) ^ (14 : ℤ) - 1 := by
        norm_num
      rw [this]
      exact h1
    have h4 : (10 ^ 14 - 1 : ℕ) < m0 := by exact_mod_cast h3
    omega
  have hm0hi : m0 ≤ 10 ^ 15 := by
    have h1 : (m0 : ℚ) < (10 : ℚ) ^ (15 : ℤ) + 1 := by
      have := abs_le.mp hclose
      have h2 : (m0 : ℚ) ≤ x + 1 / 2 := by linarith [this.2]
      linarith [hxhi]
    have h3 : (m0 : ℚ) < ((10 ^ 15 + 1 : ℕ) : ℚ) := by
      have : ((10 ^ 15 + 1 : ℕ) : ℚ) = (10 : ℚ) ^ (15 : ℤ) + 1 := by
        norm_num
      rw [this]
      exact h1
    have h4 : m0 < 10 ^ 15 + 1 := by exact_mod_cast h3
    omega
  -- value of the final mantissa * 10^(e-15) equals m0 * 10^(e0-15)
  have hvalue : ((mantissaExp a b).1 : ℚ) * (10 : ℚ) ^ ((mantissaExp a b).2 - 15) =
      (m0 : ℚ) * (10 : ℚ) ^ (e0 - 15) := by
    unfold mantissaExp
    rw [← hm0, ← he0]
    by_cases hof : m0 = 10 ^ 15
    · rw [if_pos hof]
      simp only
      rw [hof]
      push_cast
      rw [show (100000000000000 : ℚ) = (10 : ℚ) ^ (14 : ℤ) by norm_num,
        show (1000000000000000 : ℚ) = (10 : ℚ) ^ (15 : ℤ) by norm_num,
        ← zpow_add₀ hten, ← zpow_add₀ hten]
      congr 1
      omega
    · rw [if_neg hof]
  have hbounds : 10 ^ 14 ≤ (mantissaExp a b).1 ∧ (mantissaExp a b).1 < 10 ^ 15 := by
    unfold mantissaExp
    rw [← hm0]
    by_cases hof : m0 = 10 ^ 15
    · rw [if_pos hof]
      constructor
      · norm_num
      · norm_num
    · rw [if_neg hof]
      exact ⟨hm0lo, by omega⟩
  refine ⟨hbounds.1, hbounds.2, ?_⟩
  rw [hvalue]
  have hsplit : (m0 : ℚ) * (10 : ℚ) ^ (e0 - 15) - (a : ℚ) / (b : ℚ) =
      ((m0 : ℚ) - x) * (10 : ℚ) ^ (e0 - 15) := by
    rw [hx]
    have hcancel : (10 : ℚ) ^ ((15 : ℤ) - e0) * (10 : ℚ) ^ (e0 - 15) = 1 := by
      rw [← zpow_add₀ hten]
      norm_num
    calc (m0 : ℚ) * (10 : ℚ) ^ (e0 - 15) - (a : ℚ) / (b : ℚ)
        = (m0 : ℚ) * (10 : ℚ) ^ (e0 - 15) -
            ((a : ℚ) / (b : ℚ)) * ((10 : ℚ) ^ ((15 : ℤ) - e0) * (10 : ℚ) ^ (e0 - 15)) := by
          rw [hcancel]
          ring
      _ = ((m0 : ℚ) - ((a : ℚ) / (b : ℚ)) * (10 : ℚ) ^ ((15 : ℤ) - e0)) *
            (10 : ℚ) ^ (e0 - 15) := by ring
  rw [hsplit, abs_mul]
  have habs2 : |(10 : ℚ) ^ (e0 - 15)| = (10 : ℚ) ^ (e0 - 15) :=
    abs_of_pos (by positivity)
  rw [habs2]
  have h1 : |(m0 : ℚ) - x| ≤ 1 / 2 := by
    rw [abs_sub_comm]
    exact hclose
  have h2 : |(m0 : ℚ) - x| * (10 : ℚ) ^ (e0 - 15) ≤ (1 / 2) * (10 : ℚ) ^ (e0 - 15) :=
    mul_le_mul_of_nonneg_right h1 (by positivity)
  refine le_trans h2 ?_
  -- (1/2) * 10^(e0-15) ≤ (a/b) / 10^14, since 10^(e0-1) ≤ a/b.
  have hpow14 : ((10 : ℚ) ^ (14 : ℕ)) = (10 : ℚ) ^ (14 : ℤ) := by
    rw [← zpow_natCast]
    norm_num
  rw [hpow14]
  have h5 : (10 : ℚ) ^ (e0 - 1) / (10 : ℚ) ^ (14 : ℤ) = (10 : ℚ) ^ (e0 - 15) := by
    rw [← zpow_sub₀ hten]
    congr 1
    omega
  have h6 : (1 / 2 : ℚ) * (10 : ℚ) ^ (e0 - 15) ≤ (10 : ℚ) ^ (e0 - 15) := by
    have hy : (0 : ℚ) < (10 : ℚ) ^ (e0 - 15) := by positivity
    linarith
  calc (1 / 2 : ℚ) * (10 : ℚ) ^ (e0 - 15) ≤ (10 : ℚ) ^ (e0 - 15) := h6
    _ = (10 : ℚ) ^ (e0 - 1) / (10 : ℚ) ^ (14 : ℤ) := h5.symm
    _ ≤ ((a : ℚ) / (b : ℚ)) / (10 : ℚ) ^ (14 : ℤ) := by gcongr

/-! ### Rendering a rational as decimal text, and parsing it back -/

def charDigit (c : Char) : Nat := c.toNat - '0'.toNat

def digitsVal (l : List Char) : Nat := ofBE (l.map charDigit)

/-- Decimal digits of `n` (no leading zeros), as characters. -/
def expChars (n : Nat) : List Char := (digitsBE (ndigits n) n).map Nat.digitChar

/-- The 15 mantissa digits of the rendering of `a / b`, as characters. -/
def mantChars (a b : Nat) : List Char :=
  (digitsBE 15 (mantissaExp a b).1).map Nat.digitChar

/-- Fixed/scientific decimal rendering of the positive fraction `a / b`
with 15 significant digits. -/
def renderPosNum (a b : Nat) : List Char :=
  if (mantissaExp a b).2 ≤ 0 then
    '0' :: '.' :: (List.replicate (-(mantissaExp a b).2).toNat '0' ++ mantChars a b)
  else if (mantissaExp a b).2 ≤ 15 then
    (mantChars a b).take (mantissaExp a b).2.toNat ++
      '.' :: (mantChars a b).drop (mantissaExp a b).2.toNat
  else
    (mantChars a b).take 1 ++
      '.' :: ((mantChars a b).drop 1 ++ 'e' :: '+' :: expChars ((mantissaExp a b).2 - 1).toNat)

/-- Modelled from the spec: the text rendering of a numeric evaluation
result, as produced by the external float printing ("render that value as
text", 15 significant digits, e.g. `4` ↦ `"4.00000000000000"`). -/
def renderFloat (x : PreRat) : String :=
  if x.num = 0 then "0"
  else if x.num < 0 then String.mk ('-' :: renderPosNum x.num.natAbs x.den)
  else String.mk (renderPosNum x.num.natAbs x.den)

/-- The rational denoted by the rendering of `a / b`. -/
def renderedVal (a b : Nat) : ℚ :=
  ((mantissaExp a b).1 : ℚ) * (10 : ℚ) ^ ((mantissaExp a b).2 - 15)

def parseAfterFrac (base : ℚ) (rest3 : List Char) : Option ℚ :=
  match rest3 with
  | [] => some base
  | 'e' :: '+' :: es =>
    if es ≠ [] ∧ es.all (·.isDigit) then some (base * (10 : ℚ) ^ digitsVal es) else none
  | 'e' :: '-' :: es =>
    if es ≠ [] ∧ es.all (·.isDigit) then some (base / (10 : ℚ) ^ digitsVal es) else none
  | _ => none

def parseFrac (ip : Nat) (rest2 : List Char) : Option ℚ :=
  parseAfterFrac
    ((ip : ℚ) +
      (digitsVal (rest2.takeWhile (·.isDigit)) : ℚ) /
        (10 : ℚ) ^ (rest2.takeWhile (·.isDigit)).length)
    (rest2.dropWhile (·.isDigit))

def parseAfterInt (ip : Nat) (rest : List Char) : Option ℚ :=
  match rest with
  | [] => some (ip : ℚ)
  | '.' :: rest2 => parseFrac ip rest2
  | _ => none

def parseUnsigned (cs : List Char) : Option ℚ :=
  if cs.takeWhile (·.isDigit) = [] then none
  else parseAfterInt (digitsVal (cs.takeWhile (·.isDigit))) (cs.dropWhile (·.isDigit))

/-- Parse decimal text (optional sign, integer part, optional fractional
part and exponent) back to an exact rational. -/
def parseDec (s : String) : Option ℚ :=
  match s.data with
  | [] => none
  | c :: cs =>
    if c = '-' then (parseUnsigned cs).map (fun q => -q) else parseUnsigned (c :: cs)

/-! Support lemmas about character digits and `takeWhile`. -/

theorem digitChar_isDigit (d : Nat) (h : d < 10) : (Nat.digitChar d).isDigit = true := by
  interval_cases d <;> decide

theorem charDigit_digitChar (d : Nat) (h : d < 10) : charDigit (Nat.digitChar d) = d := by
  interval_cases d <;> decide

theorem digitsVal_map_digitChar (k m : Nat) :
    digitsVal ((digitsBE k m).map Nat.digitChar) = m % 10 ^ k := by
  unfold digitsVal
  rw [List.map_map]
  have hmap : (digitsBE k m).map (charDigit ∘ Nat.digitChar) = digitsBE k m := by
    have h1 : ∀ d ∈ digitsBE k m, (charDigit ∘ Nat.digitChar) d = id d := by
      intro d hd
      exact charDigit_digitChar d (digitsBE_lt_ten k m d hd)
    rw [List.map_congr_left h1, List.map_id]
  rw [hmap, ofBE_digitsBE]

theorem takeWhile_all_append (p : Char → Bool) :
    ∀ (D R : List Char), (∀ c ∈ D, p c = true) →
      (R = [] ∨ ∃ c cs, R = c :: cs ∧ p c = false) →
      (D ++ R).takeWhile p = D ∧ (D ++ R).dropWhile p = R := by
  intro D
  induction D with
  | nil =>
    intro R _ hR
    rcases hR with rfl | ⟨c, cs, rfl, hc⟩
    · exact ⟨rfl, rfl⟩
    · constructor
      · simp [List.takeWhile_cons, hc]
      · simp [List.dropWhile_cons, hc]
  | cons d D ih =>
    intro R hD hR
    have hd : p d = true := hD d (by simp)
    obtain ⟨h1, h2⟩ := ih R (fun c hc => hD c (by simp [hc])) hR
    constructor
    · simp [List.takeWhile_cons, hd, h1]
    · simp [List.dropWhile_cons, hd, h2]

theorem digitsBE_split (i j m : Nat) :
    digitsBE (i + j) m = digitsBE i (m / 10 ^ j) ++ digitsBE j m := by
  induction j generalizing m with
  | zero => simp [digitsBE, Nat.pow_zero, Nat.div_one]
  | succ j ih =>
    have hstep : i + (j + 1) = (i + j) + 1 := by omega
    rw [hstep, digitsBE, ih (m / 10), digitsBE, List.append_assoc]
    have hdiv : m / 10 / 10 ^ j = m / 10 ^ (j + 1) := by
      rw [Nat.div_div_eq_div_mul, Nat.pow_succ, Nat.mul_comm (10 ^ j) 10]
    rw [hdiv]

theorem ofBE_replicate_zero_append (z : Nat) (L : List Nat) :
    ofBE (List.replicate z 0 ++ L) = ofBE L := by
  induction z with
  | zero => rfl
  | succ z ih =>
    rw [List.replicate_succ, List.cons_append]
    show (List.replicate z 0 ++ L).foldl (fun a d => 10 * a + d) (10 * 0 + 0) = ofBE L
    exact ih

theorem mantChars_length (a b : Nat) : (mantChars a b).length = 15 := by
  rw [mantChars, List.length_map, digitsBE_length]

theorem mantChars_digits (a b : Nat) :
    ∀ c ∈ mantChars a b, c.isDigit = true := by
  intro c hc
  rw [mantChars] at hc
  obtain ⟨d, hd, rfl⟩ := List.mem_map.mp hc
  exact digitChar_isDigit d (digitsBE_lt_ten _ _ d hd)

theorem expChars_digits (n : Nat) : ∀ c ∈ expChars n, c.isDigit = true := by
  intro c hc
  rw [expChars] at hc
  obtain ⟨d, hd, rfl⟩ := List.mem_map.mp hc
  exact digitChar_isDigit d (digitsBE_lt_ten _ _ d hd)

theorem expChars_ne_nil (n : Nat) (h0 : n ≠ 0) : expChars n ≠ [] := by
  intro h
  have hlen : (expChars n).length = ndigits n := by
    rw [expChars, List.length_map, digitsBE_length]
  rw [h] at hlen
  have := ndigits_pos n h0
  simp at hlen
  omega

theorem digitsVal_expChars (n : Nat) (h0 : n ≠ 0) : digitsVal (expChars n) = n := by
  rw [expChars, digitsVal_map_digitChar]
  exact Nat.mod_eq_of_lt (ndigits_bounds n h0).2

theorem mantChars_take_val (a b t : Nat) (ht : t ≤ 15) :
    digitsVal ((mantChars a b).take t) = (mantissaExp a b).1 / 10 ^ (15 - t) %
      10 ^ t := by
  set m := (mantissaExp a b).1 with hm
  have hsplit : digitsBE 15 m =
      digitsBE t (m / 10 ^ (15 - t)) ++ digitsBE (15 - t) m := by
    have h := digitsBE_split t (15 - t) m
    rw [show t + (15 - t) = 15 from by omega] at h
    exact h
  have htake : (mantChars a b).take t =
      (digitsBE t (m / 10 ^ (15 - t))).map Nat.digitChar := by
    rw [mantChars, ← hm, ← List.map_take]
    congr 1
    rw [hsplit]
    exact List.take_left' (digitsBE_length _ _)
  rw [htake, digitsVal_map_digitChar]

theorem mantChars_drop_val (a b t : Nat) (ht : t ≤ 15) :
    digitsVal ((mantChars a b).drop t) = (mantissaExp a b).1 % 10 ^ (15 - t) := by
  set m := (mantissaExp a b).1 with hm
  have hsplit : digitsBE 15 m =
      digitsBE t (m / 10 ^ (15 - t)) ++ digitsBE (15 - t) m := by
    have h := digitsBE_split t (15 - t) m
    rw [show t + (15 - t) = 15 from by omega] at h
    exact h
  have hdrop : (mantChars a b).drop t =
      (digitsBE (15 - t) m).map Nat.digitChar := by
    rw [mantChars, ← hm, ← List.map_drop]
    congr 1
    rw [hsplit]
    exact List.drop_left' (digitsBE_length _ _)
  rw [hdrop, digitsVal_map_digitChar]

theorem digitsVal_mantChars (a b : Nat) (ha : a ≠ 0) (hb : b ≠ 0) :
    digitsVal (mantChars a b) = (mantissaExp a b).1 := by
  rw [mantChars, digitsVal_map_digitChar]
  exact Nat.mod_eq_of_lt (mantissaExp_spec a b ha hb).2.1

theorem renderPos_parse_low (a b : Nat) (ha : a ≠ 0) (hb : b ≠ 0)
    (he : (mantissaExp a b).2 ≤ 0) :
    parseUnsigned (renderPosNum a b) = some (renderedVal a b) := by
  set m := (mantissaExp a b).1 with hm
  set e := (mantissaExp a b).2 with hedef
  set z := (-e).toNat with hz
  set ds := mantChars a b with hds
  have hcs : renderPosNum a b = '0' :: '.' :: (List.replicate z '0' ++ ds) := by
    rw [renderPosNum, if_pos he]
  have hA := takeWhile_all_append (·.isDigit) ['0']
    ('.' :: (List.replicate z '0' ++ ds))
    (by intro c hc; simp at hc; subst hc; decide)
    (Or.inr ⟨'.', List.replicate z '0' ++ ds, rfl, by decide⟩)
  rw [List.singleton_append] at hA
  have hdig2 : ∀ c ∈ List.replicate z '0' ++ ds, c.isDigit = true := by
    intro c hc
    rcases List.mem_append.mp hc with h | h
    · rw [List.eq_of_mem_replicate h]
      decide
    · exact mantChars_digits a b c h
  have hB := takeWhile_all_append (·.isDigit) (List.replicate z '0' ++ ds) []
    hdig2 (Or.inl rfl)
  rw [List.append_nil] at hB
  rw [hcs]
  unfold parseUnsigned
  rw [hA.1, hA.2]
  rw [if_neg (by simp : ¬(['0'] : List Char) = [])]
  show parseFrac (digitsVal ['0']) (List.replicate z '0' ++ ds) = some (renderedVal a b)
  unfold parseFrac
  rw [hB.1, hB.2]
  show some _ = some (renderedVal a b)
  congr 1
  have hval2 : digitsVal (List.replicate z '0' ++ ds) = m := by
    unfold digitsVal
    rw [List.map_append, List.map_replicate]
    show ofBE (List.replicate z (charDigit '0') ++ ds.map charDigit) = m
    have hc0 : charDigit '0' = 0 := rfl
    rw [hc0, ofBE_replicate_zero_append]
    exact digitsVal_mantChars a b ha hb
  have hlen : (List.replicate z '0' ++ ds).length = z + 15 := by
    rw [List.length_append, List.length_replicate, hds, mantChars_length]
  rw [hval2, hlen]
  have hv0 : digitsVal ['0'] = 0 := rfl
  rw [hv0]
  unfold renderedVal
  rw [← hm, ← hedef]
  have hexp : e - 15 = -(((z + 15 : ℕ) : ℤ)) := by
    have : (z : ℤ) = -e := by omega
    omega
  rw [hexp, zpow_neg, zpow_natCast]
  push_cast
  rw [zero_add, div_eq_mul_inv]

theorem renderPos_parse_mid (a b : Nat) (ha : a ≠ 0) (hb : b ≠ 0)
    (he0 : 0 < (mantissaExp a b).2) (he15 : (mantissaExp a b).2 ≤ 15) :
    parseUnsigned (renderPosNum a b) = some (renderedVal a b) := by
  set m := (mantissaExp a b).1 with hm
  set e := (mantissaExp a b).2 with hedef
  set t := e.toNat with ht
  set ds := mantChars a b with hds
  have htle : t ≤ 15 := by omega
  have ht1 : 1 ≤ t := by omega
  have hmhi : m < 10 ^ 15 := (mantissaExp_spec a b ha hb).2.1
  have hcs : renderPosNum a b = ds.take t ++ '.' :: ds.drop t := by
    rw [renderPosNum, if_neg (by omega), if_pos he15]
  have hA := takeWhile_all_append (·.isDigit) (ds.take t) ('.' :: ds.drop t)
    (fun c hc => mantChars_digits a b c (List.take_subset t ds hc))
    (Or.inr ⟨'.', ds.drop t, rfl, by decide⟩)
  have hB := takeWhile_all_append (·.isDigit) (ds.drop t) []
    (fun c hc => mantChars_digits a b c (List.drop_subset t ds hc)) (Or.inl rfl)
  rw [List.append_nil] at hB
  have hne : ¬(ds.take t = []) := by
    intro h
    have := congrArg List.length h
    rw [List.length_take, hds, mantChars_length] at this
    simp at this
    omega
  rw [hcs]
  unfold parseUnsigned
  rw [hA.1, hA.2, if_neg hne]
  show parseFrac (digitsVal (ds.take t)) (ds.drop t) = some (renderedVal a b)
  unfold parseFrac
  rw [hB.1, hB.2]
  show some _ = some (renderedVal a b)
  congr 1
  have hip : digitsVal (ds.take t) = m / 10 ^ (15 - t) := by
    rw [hds, mantChars_take_val a b t htle, ← hm]
    apply Nat.mod_eq_of_lt
    rw [Nat.div_lt_iff_lt_mul (pow_pos (by omega) _)]
    calc m < 10 ^ 15 := hmhi
      _ = 10 ^ t * 10 ^ (15 - t) := by
        rw [← Nat.pow_add]
        congr 1
        omega
  have hfv : digitsVal (ds.drop t) = m % 10 ^ (15 - t) := by
    rw [hds, mantChars_drop_val a b t htle, ← hm]
  have hlen : (ds.drop t).length = 15 - t := by
    rw [List.length_drop, hds, mantChars_length]
  rw [hip, hfv, hlen]
  have hPpos : (0 : ℚ) < ((10 : ℚ) ^ (15 - t : ℕ)) := by positivity
  have hbase : ((m / 10 ^ (15 - t) : ℕ) : ℚ) +
      ((m % 10 ^ (15 - t) : ℕ) : ℚ) / (10 : ℚ) ^ (15 - t : ℕ) =
      (m : ℚ) / (10 : ℚ) ^ (15 - t : ℕ) := by
    rw [eq_div_iff hPpos.ne', add_mul, div_mul_cancel₀ _ hPpos.ne']
    have hnat : m / 10 ^ (15 - t) * 10 ^ (15 - t) + m % 10 ^ (15 - t) = m := by
      have hdm : 10 ^ (15 - t) * (m / 10 ^ (15 - t)) + m % 10 ^ (15 - t) = m :=
        Nat.div_add_mod m (10 ^ (15 - t))
      calc m / 10 ^ (15 - t) * 10 ^ (15 - t) + m % 10 ^ (15 - t)
          = 10 ^ (15 - t) * (m / 10 ^ (15 - t)) + m % 10 ^ (15 - t) := by ring
        _ = m := hdm
    exact_mod_cast hnat
  rw [hbase]
  unfold renderedVal
  rw [← hm, ← hedef]
  have hexp : e - 15 = -(((15 - t : ℕ) : ℤ)) := by
    have : (t : ℤ) = e := by omega
    omega
  rw [hexp, zpow_neg, zpow_natCast, div_eq_mul_inv]

theorem renderPos_parse_high (a b : Nat) (ha : a ≠ 0) (hb : b ≠ 0)
    (he : 15 < (mantissaExp a b).2) :
    parseUnsigned (renderPosNum a b) = some (renderedVal a b) := by
  set m := (mantissaExp a b).1 with hm
  set e := (mantissaExp a b).2 with hedef
  set ds := mantChars a b with hds
  set exps := expChars (e - 1).toNat with hexps
  have hmhi : m < 10 ^ 15 := (mantissaExp_spec a b ha hb).2.1
  have he1 : (e - 1).toNat ≠ 0 := by omega
  have hcs : renderPosNum a b =
      ds.take 1 ++ '.' :: (ds.drop 1 ++ 'e' :: '+' :: exps) := by
    rw [renderPosNum, if_neg (by omega), if_neg (by omega)]
  have hA := takeWhile_all_append (·.isDigit) (ds.take 1)
    ('.' :: (ds.drop 1 ++ 'e' :: '+' :: exps))
    (fun c hc => mantChars_digits a b c (List.take_subset 1 ds hc))
    (Or.inr ⟨'.', ds.drop 1 ++ 'e' :: '+' :: exps, rfl, by decide⟩)
  have hB := takeWhile_all_append (·.isDigit) (ds.drop 1) ('e' :: '+' :: exps)
    (fun c hc => mantChars_digits a b c (List.drop_subset 1 ds hc))
    (Or.inr ⟨'e', '+' :: exps, rfl, by decide⟩)
  have hne : ¬(ds.take 1 = []) := by
    intro h
    have := congrArg List.length h
    rw [List.length_take, hds, mantChars_length] at this
    simp at this
  rw [hcs]
  unfold parseUnsigned
  rw [hA.1, hA.2, if_neg hne]
  show parseFrac (digitsVal (ds.take 1)) (ds.drop 1 ++ 'e' :: '+' :: exps) =
    some (renderedVal a b)
  unfold parseFrac
  rw [hB.1, hB.2]
  show parseAfterFrac _ ('e' :: '+' :: exps) = some (renderedVal a b)
  have hcond : exps ≠ [] ∧ exps.all (·.isDigit) := by
    refine ⟨expChars_ne_nil _ he1, ?_⟩
    rw [List.all_eq_true]
    intro c hc
    exact expChars_digits _ c hc
  rw [parseAfterFrac, if_pos hcond]
  congr 1
  have hip : digitsVal (ds.take 1) = m / 10 ^ 14 := by
    rw [hds, mantChars_take_val a b 1 (by omega), ← hm]
    apply Nat.mod_eq_of_lt
    rw [Nat.div_lt_iff_lt_mul (pow_pos (by omega) _)]
    calc m < 10 ^ 15 := hmhi
      _ = 10 ^ 1 * 10 ^ 14 := by norm_num
  have hfv : digitsVal (ds.drop 1) = m % 10 ^ 14 := by
    rw [hds, mantChars_drop_val a b 1 (by omega), ← hm]
  have hlen : (ds.drop 1).length = 14 := by
    rw [List.length_drop, hds, mantChars_length]
  have hev : digitsVal exps = (e - 1).toNat := digitsVal_expChars _ he1
  rw [hip, hfv, hlen, hev]
  have hPpos : (0 : ℚ) < ((10 : ℚ) ^ (14 : ℕ)) := by positivity
  have hbase : ((m / 10 ^ 14 : ℕ) : ℚ) +
      ((m % 10 ^ 14 : ℕ) : ℚ) / (10 : ℚ) ^ (14 : ℕ) =
      (m : ℚ) / (10 : ℚ) ^ (14 : ℕ) := by
    rw [eq_div_iff hPpos.ne', add_mul, div_mul_cancel₀ _ hPpos.ne']
    have hnat : m / 10 ^ 14 * 10 ^ 14 + m % 10 ^ 14 = m := by
      have hdm : 10 ^ 14 * (m / 10 ^ 14) + m % 10 ^ 14 = m :=
        Nat.div_add_mod m (10 ^ 14)
      omega
    exact_mod_cast hnat
  rw [hbase]
  unfold renderedVal
  rw [← hm, ← hedef]
  have hzp : (10 : ℚ) ^ ((e - 1).toNat : ℕ) = (10 : ℚ) ^ ((e : ℤ) - 1) := by
    have h1 : (((e - 1).toNat : ℕ) : ℤ) = e - 1 := by omega
    rw [← zpow_natCast (10 : ℚ) ((e - 1).toNat), h1]
  rw [hzp]
  have hten : (10 : ℚ) ≠ 0 := by norm_num
  have hp14 : ((10 : ℚ) ^ (14 : ℕ)) = (10 : ℚ) ^ (14 : ℤ) := by
    rw [← zpow_natCast (10 : ℚ) 14]
    norm_num
  rw [hp14, div_mul_eq_mul_div, div_eq_iff (by positivity), mul_assoc,
    ← zpow_add₀ hten, show (e : ℤ) - 15 + 14 = e - 1 from by omega]

theorem parseUnsigned_renderPosNum (a b : Nat) (ha : a ≠ 0) (hb : b ≠ 0) :
    parseUnsigned (renderPosNum a b) = some (renderedVal a b) := by
  by_cases h1 : (mantissaExp a b).2 ≤ 0
  · exact renderPos_parse_low a b ha hb h1
  · by_cases h2 : (mantissaExp a b).2 ≤ 15
    · exact renderPos_parse_mid a b ha hb (by omega) h2
    · exact renderPos_parse_high a b ha hb (by omega)

theorem parseUnsigned_head_digit (cs : List Char) (q : ℚ)
    (h : parseUnsigned cs = some q) :
    ∃ c rest, cs = c :: rest ∧ c.isDigit = true := by
  have hne : ¬(cs.takeWhile (·.isDigit) = []) := by
    intro hc
    unfold parseUnsigned at h
    rw [if_pos hc] at h
    exact Option.noConfusion h
  cases cs with
  | nil => exact absurd rfl hne
  | cons c rest =>
    refine ⟨c, rest, rfl, ?_⟩
    by_contra hcon
    apply hne
    rw [List.takeWhile_cons]
    simp [hcon]

theorem parseDec_mk_pos (cs : List Char) (q : ℚ) (h : parseUnsigned cs = some q) :
    parseDec (String.mk cs) = some q := by
  obtain ⟨c, rest, rfl, hd⟩ := parseUnsigned_head_digit cs q h
  have hneq : ¬(c = '-') := by
    intro hcon
    rw [hcon] at hd
    exact absurd hd (by decide)
  show (if c = '-' then (parseUnsigned rest).map (fun q => -q)
    else parseUnsigned (c :: rest)) = some q
  rw [if_neg hneq]
  exact h

theorem parseDec_mk_neg (cs : List Char) (q : ℚ) (h : parseUnsigned cs = some q) :
    parseDec (String.mk ('-' :: cs)) = some (-q) := by
  show (if '-' = '-' then (parseUnsigned cs).map (fun q => -q)
    else parseUnsigned ('-' :: cs)) = some (-q)
  rw [if_pos rfl, h]
  rfl

/-- The rendering of any exact rational parses back to a rational within
relative tolerance `10 ^ (-14)` of it. -/
theorem parseDec_renderFloat (x : PreRat) (hden : x.den ≠ 0) :
    ∃ q : ℚ, parseDec (renderFloat x) = some q ∧
      |q - val x| ≤ |val x| / 10 ^ 14 := by
  have hbQ : (0 : ℚ) < x.den := by exact_mod_cast Nat.pos_of_ne_zero hden
  rcases lt_trichotomy x.num 0 with h | h | h
  · -- negative value
    set a := x.num.natAbs with ha
    have ha0 : a ≠ 0 := by
      rw [ha]
      exact Int.natAbs_ne_zero.mpr h.ne
    have hrf : renderFloat x = String.mk ('-' :: renderPosNum a x.den) := by
      rw [renderFloat, if_neg (by omega), if_pos h]
    refine ⟨-(renderedVal a x.den), ?_, ?_⟩
    · rw [hrf]
      exact parseDec_mk_neg _ _ (parseUnsigned_renderPosNum a x.den ha0 hden)
    · have hvx : val x = -((a : ℚ) / (x.den : ℚ)) := by
        unfold val
        have : ((a : ℕ) : ℚ) = -(x.num : ℚ) := by
          rw [ha, Int.cast_natAbs, abs_of_neg h]
          push_cast
          ring
        rw [this]
        ring
      have habs : |val x| = (a : ℚ) / (x.den : ℚ) := by
        rw [hvx, abs_neg, abs_of_pos]
        positivity
      rw [habs, hvx]
      have h1 := (mantissaExp_spec a x.den ha0 hden).2.2
      calc |-(renderedVal a x.den) - -((a : ℚ) / (x.den : ℚ))|
          = |renderedVal a x.den - (a : ℚ) / (x.den : ℚ)| := by
            rw [← abs_neg]
            ring_nf
        _ ≤ ((a : ℚ) / (x.den : ℚ)) / 10 ^ 14 := h1
  · -- zero value
    have hrf : renderFloat x = "0" := by rw [renderFloat, if_pos h]
    have hvx : val x = 0 := by
      unfold val
      rw [h]
      simp
    refine ⟨0, ?_, ?_⟩
    · rw [hrf]
      decide
    · rw [hvx]
      simp
  · -- positive value
    set a := x.num.natAbs with ha
    have ha0 : a ≠ 0 := by
      rw [ha]
      exact Int.natAbs_ne_zero.mpr h.ne'
    have hrf : renderFloat x = String.mk (renderPosNum a x.den) := by
      rw [renderFloat, if_neg (by omega), if_neg (by omega)]
    refine ⟨renderedVal a x.den, ?_, ?_⟩
    · rw [hrf]
      exact parseDec_mk_pos _ _ (parseUnsigned_renderPosNum a x.den ha0 hden)
    · have hvx : val x = (a : ℚ) / (x.den : ℚ) := by
        unfold val
        have : ((a : ℕ) : ℚ) = (x.num : ℚ) := by
          rw [ha, Int.cast_natAbs, abs_of_pos h]
        rw [this]
      have habs : |val x| = (a : ℚ) / (x.den : ℚ) := by
        rw [hvx, abs_of_pos]
        have haQ : (0 : ℚ) < a := by
          exact_mod_cast Nat.pos_of_ne_zero ha0
        positivity
      rw [habs, hvx]
      exact (mantissaExp_spec a x.den ha0 hden).2.2

/-! ### Expression language

Modelled from the spec: §4.1 — "parse the text into a symbolic expression
tree, then numerically evaluate it"; the parser/evaluator itself is the
external `sympy.sympify` / `evalf`, which is not part of the repository. -/

inductive Token
  | num (v : PreRat)
  | ident (s : List Char)
  | plus
  | minus
  | star
  | slash
  | caret
  | lparen
  | rparen
  deriving DecidableEq, Repr

/-- Modelled from the spec: tokenization of arithmetic expression text
(numbers with optional fractional part, identifiers, operators, parens). -/
def tokenizeAux : Nat → List Char → Except String (List Token)
  | _, [] => .ok []
  | 0, _ => .error "tokenizer out of fuel"
  | f + 1, c :: cs =>
    if c = ' ' then tokenizeAux f cs
    else if c.isDigit then
      match (c :: cs).dropWhile (·.isDigit) with
      | '.' :: rest2 =>
        (tokenizeAux f (rest2.dropWhile (·.isDigit))).map fun ts =>
          Token.num
            ⟨((digitsVal ((c :: cs).takeWhile (·.isDigit)) *
                  10 ^ (rest2.takeWhile (·.isDigit)).length +
                digitsVal (rest2.takeWhile (·.isDigit)) : Nat) : Int),
              10 ^ (rest2.takeWhile (·.isDigit)).length⟩ :: ts
      | rest =>
        (tokenizeAux f rest).map fun ts =>
          Token.num ⟨((digitsVal ((c :: cs).takeWhile (·.isDigit)) : Nat) : Int), 1⟩ :: ts
    else if c.isAlpha then
      (tokenizeAux f ((c :: cs).dropWhile (·.isAlpha))).map fun ts =>
        Token.ident ((c :: cs).takeWhile (·.isAlpha)) :: ts
    else if c = '+' then (tokenizeAux f cs).map fun ts => Token.plus :: ts
    else if c = '-' then (tokenizeAux f cs).map fun ts => Token.minus :: ts
    else if c = '*' then (tokenizeAux f cs).map fun ts => Token.star :: ts
    else if c = '/' then (tokenizeAux f cs).map fun ts => Token.slash :: ts
    else if c = '^' then (tokenizeAux f cs).map fun ts => Token.caret :: ts
    else if c = '(' then (tokenizeAux f cs).map fun ts => Token.lparen :: ts
    else if c = ')' then (tokenizeAux f cs).map fun ts => Token.rparen :: ts
    else .error "unexpected character"

def tokenize (cs : List Char) : Except String (List Token) :=
  tokenizeAux (cs.length + 1) cs

/-- Symbolic expression tree (the modelled `sympify` output). -/
inductive Expr
  | num (v : PreRat)
  | var (name : List Char)
  | add (a b : Expr)
  | sub (a b : Expr)
  | mul (a b : Expr)
  | div (a b : Expr)
  | pow (a : Expr) (k : Int)
  | neg (a : Expr)
  deriving DecidableEq, Repr

def parseIntLit : List Token → Except String (Int × List Token)
  | Token.num v :: ts =>
    if v.den = 1 then .ok (v.num, ts) else .error "exponent must be an integer"
  | Token.minus :: Token.num v :: ts =>
    if v.den = 1 then .ok (-v.num, ts) else .error "exponent must be an integer"
  | _ => .error "expected integer exponent"

inductive PMode
  | pexpr
  | pexprLoop
  | pterm
  | ptermLoop
  | pfactor
  | patom
  deriving DecidableEq, Repr

/-- Modelled from the spec: recursive-descent parsing of arithmetic
expressions with the usual precedence (`+ -` < `* /` < `^`), parentheses
and unary minus.  Fueled so that it is structurally recursive. -/
def parseRun : Nat → PMode → Expr → List Token → Except String (Expr × List Token)
  | 0, _, _, _ => .error "parser out of fuel"
  | f + 1, m, acc, ts =>
    match m with
    | .pexpr => do
      let (e, r) ← parseRun f .pterm acc ts
      parseRun f .pexprLoop e r
    | .pexprLoop =>
      match ts with
      | Token.plus :: r => do
        let (b, r2) ← parseRun f .pterm acc r
        parseRun f .pexprLoop (Expr.add acc b) r2
      | Token.minus :: r => do
        let (b, r2) ← parseRun f .pterm acc r
        parseRun f .pexprLoop (Expr.sub acc b) r2
      | _ => .ok (acc, ts)
    | .pterm => do
      let (e, r) ← parseRun f .pfactor acc ts
      parseRun f .ptermLoop e r
    | .ptermLoop =>
      match ts with
      | Token.star :: r => do
        let (b, r2) ← parseRun f .pfactor acc r
        parseRun f .ptermLoop (Expr.mul acc b) r2
      | Token.slash :: r => do
        let (b, r2) ← parseRun f .pfactor acc r
        parseRun f .ptermLoop (Expr.div acc b) r2
      | _ => .ok (acc, ts)
    | .pfactor => do
      let (a, r) ← parseRun f .patom acc ts
      match r with
      | Token.caret :: r2 =>
        (parseIntLit r2).map fun (k, r3) => (Expr.pow a k, r3)
      | _ => .ok (a, r)
    | .patom =>
      match ts with
      | Token.num v :: r => .ok (Expr.num v, r)
      | Token.ident s :: r => .ok (Expr.var s, r)
      | Token.minus :: r =>
        (parseRun f .pfactor acc r).map fun (e, r2) => (Expr.neg e, r2)
      | Token.lparen :: r => do
        let (e, r2) ← parseRun f .pexpr acc r
        match r2 with
        | Token.rparen :: r3 => .ok (e, r3)
        | _ => .error "expected closing parenthesis"
      | _ => .error "expected a number, variable or parenthesized expression"

/-- Modelled from the spec: `sympify` — parse text into a symbolic
expression tree, failing with a parse error on syntactically invalid text. -/
def sympify (s : String) : Except String Expr :=
  match tokenize s.data with
  | .error msg => .error msg
  | .ok ts =>
    match parseRun ((ts.length + 1) * 16) .pexpr (Expr.num ⟨0, 1⟩) ts with
    | .ok (e, []) => .ok e
    | .ok (_, _ :: _) => .error "unexpected trailing input"
    | .error msg => .error msg

inductive EvalError
  | divisionByZero
  | zeroPowNegative
  | freeVariable
  deriving DecidableEq, Repr

/-- Modelled from the spec: numeric evaluation of the expression tree over
exact rationals, failing on undefined operations (division by zero). -/
def evalNum : Expr → Except EvalError PreRat
  | .num v => .ok v
  | .var _ => .error .freeVariable
  | .add a b =>
    match evalNum a, evalNum b with
    | .ok x, .ok y => .ok (padd x y)
    | .error e, _ => .error e
    | .ok _, .error e => .error e
  | .sub a b =>
    match evalNum a, evalNum b with
    | .ok x, .ok y => .ok (psub x y)
    | .error e, _ => .error e
    | .ok _, .error e => .error e
  | .mul a b =>
    match evalNum a, evalNum b with
    | .ok x, .ok y => .ok (pmul x y)
    | .error e, _ => .error e
    | .ok _, .error e => .error e
  | .div a b =>
    match evalNum a, evalNum b with
    | .ok x, .ok y => if y.num = 0 then .error .divisionByZero else .ok (pdiv x y)
    | .error e, _ => .error e
    | .ok _, .error e => .error e
  | .pow a k =>
    match evalNum a with
    | .ok x => if x.num = 0 ∧ k < 0 then .error .zeroPowNegative else .ok (pzpow x k)
    | .error e => .error e
  | .neg a =>
    match evalNum a with
    | .ok x => .ok (pneg x)
    | .error e => .error e

/-- The mathematical value of an expression tree: exact rational semantics,
undefined (`none`) on division by zero, `0 ^ (negative)`, free variables,
or malformed literals. -/
def mathValue : Expr → Option ℚ
  | .num v => if v.den = 0 then none else some (val v)
  | .var _ => none
  | .add a b =>
    match mathValue a, mathValue b with
    | some x, some y => some (x + y)
    | _, _ => none
  | .sub a b =>
    match mathValue a, mathValue b with
    | some x, some y => some (x - y)
    | _, _ => none
  | .mul a b =>
    match mathValue a, mathValue b with
    | some x, some y => some (x * y)
    | _, _ => none
  | .div a b =>
    match mathValue a, mathValue b with
    | some x, some y => if y = 0 then none else some (x / y)
    | _, _ => none
  | .pow a k =>
    match mathValue a with
    | some x => if x = 0 ∧ k < 0 then none else some (x ^ k)
    | none => none
  | .neg a =>
    match mathValue a with
    | some x => some (-x)
    | none => none

def hasVar : Expr → Bool
  | .num _ => false
  | .var _ => true
  | .add a b => hasVar a || hasVar b
  | .sub a b => hasVar a || hasVar b
  | .mul a b => hasVar a || hasVar b
  | .div a b => hasVar a || hasVar b
  | .pow a _ => hasVar a
  | .neg a => hasVar a

def intChars (k : Int) : List Char :=
  if k < 0 then '-' :: expChars k.natAbs
  else if k = 0 then ['0']
  else expChars k.natAbs

/-- Modelled from the spec: the textual rendering of a partially evaluated
symbolic expression (numeric leaves rendered as floats, variables kept). -/
def renderSymbolic : Expr → List Char
  | .num v => (renderFloat v).data
  | .var s => s
  | .add a b => renderSymbolic a ++ ' ' :: '+' :: ' ' :: renderSymbolic b
  | .sub a b => renderSymbolic a ++ ' ' :: '-' :: ' ' :: renderSymbolic b
  | .mul a b => renderSymbolic a ++ '*' :: renderSymbolic b
  | .div a b => renderSymbolic a ++ '/' :: renderSymbolic b
  | .pow a k => renderSymbolic a ++ '^' :: intChars k
  | .neg a => '-' :: renderSymbolic a

inductive EvaluateError
  | parse (msg : String)
  | evaluation (err : EvalError)
  deriving DecidableEq, Repr

namespace ExpressionEvaluator

/-- Modelled from the spec: §4.1 `evaluate(expression: text) -> result: text`
— parse the text into a symbolic expression tree, numerically evaluate it,
render the value as text; surface parse errors and evaluation errors to the
caller.  Mirrors `CalculatorTool.run`: `sympify` then `evalf` then `str`. -/
def evaluate (s : String) : Except EvaluateError String :=
  match sympify s with
  | .error msg => .error (.parse msg)
  | .ok e =>
    if hasVar e then .ok (String.mk (renderSymbolic e))
    else
      match evalNum e with
      | .error err => .error (.evaluation err)
      | .ok r => .ok (renderFloat r)

end ExpressionEvaluator

structure CalculatorToolSchema where
  expression : String
  deriving DecidableEq, Repr

structure CalculatorToolOutputSchema where
  result : String
  deriving DecidableEq, Repr

namespace CalculatorTool

/-- From `A_deep_dive_into_atomic_agents-BaseTool.py`, `CalculatorTool.run`:
sympify the expression string, evaluate numerically, return the result
rendered as a string; exceptions propagate to the caller. -/
def run (params : CalculatorToolSchema) : Except EvaluateError CalculatorToolOutputSchema :=
  (ExpressionEvaluator.evaluate params.expression).map fun r => ⟨r⟩

end CalculatorTool

/-- Exact-rational evaluation computes the mathematical value: whenever the
mathematical value is defined, `evalNum` succeeds with a well-formed pair
denoting it. -/
theorem evalNum_sound : ∀ (e : Expr) (v : ℚ), mathValue e = some v →
    ∃ r, evalNum e = .ok r ∧ r.den ≠ 0 ∧ val r = v := by
  intro e
  induction e with
  | num w =>
    intro v h
    rw [mathValue] at h
    by_cases hd : w.den = 0
    · rw [if_pos hd] at h
      exact Option.noConfusion h
    · rw [if_neg hd] at h
      exact ⟨w, rfl, hd, Option.some_injective _ h⟩
  | var s =>
    intro v h
    rw [mathValue] at h
    exact Option.noConfusion h
  | add a b iha ihb =>
    intro v h
    rw [mathValue] at h
    cases hma : mathValue a with
    | none => rw [hma] at h; simp at h
    | some x =>
      cases hmb : mathValue b with
      | none => rw [hma, hmb] at h; simp at h
      | some y =>
        rw [hma, hmb] at h
        obtain ⟨ra, hra, hda, hva⟩ := iha x hma
        obtain ⟨rb, hrb, hdb, hvb⟩ := ihb y hmb
        refine ⟨padd ra rb, ?_, den_padd _ _ hda hdb, ?_⟩
        · simp only [evalNum, hra, hrb]
        · rw [val_padd _ _ hda hdb, hva, hvb]
          exact Option.some_injective _ h
  | sub a b iha ihb =>
    intro v h
    rw [mathValue] at h
    cases hma : mathValue a with
    | none => rw [hma] at h; simp at h
    | some x =>
      cases hmb : mathValue b with
      | none => rw [hma, hmb] at h; simp at h
      | some y =>
        rw [hma, hmb] at h
        obtain ⟨ra, hra, hda, hva⟩ := iha x hma
        obtain ⟨rb, hrb, hdb, hvb⟩ := ihb y hmb
        refine ⟨psub ra rb, ?_, den_psub _ _ hda hdb, ?_⟩
        · simp only [evalNum, hra, hrb]
        · rw [val_psub _ _ hda hdb, hva, hvb]
          exact Option.some_injective _ h
  | mul a b iha ihb =>
    intro v h
    rw [mathValue] at h
    cases hma : mathValue a with
    | none => rw [hma] at h; simp at h
    | some x =>
      cases hmb : mathValue b with
      | none => rw [hma, hmb] at h; simp at h
      | some y =>
        rw [hma, hmb] at h
        obtain ⟨ra, hra, hda, hva⟩ := iha x hma
        obtain ⟨rb, hrb, hdb, hvb⟩ := ihb y hmb
        refine ⟨pmul ra rb, ?_, den_pmul _ _ hda hdb, ?_⟩
        · simp only [evalNum, hra, hrb]
        · rw [val_pmul, hva, hvb]
          exact Option.some_injective _ h
  | div a b iha ihb =>
    intro v h
    rw [mathValue] at h
    cases hma : mathValue a with
    | none => rw [hma] at h; simp at h
    | some x =>
      cases hmb : mathValue b with
      | none => rw [hma, hmb] at h; simp at h
      | some y =>
        rw [hma, hmb] at h
        by_cases hy : y = 0
        · simp [hy] at h
        · simp only [if_neg hy] at h
          obtain ⟨ra, hra, hda, hva⟩ := iha x hma
          obtain ⟨rb, hrb, hdb, hvb⟩ := ihb y hmb
          have hnum : ¬(rb.num = 0) := by
            intro h0
            exact hy (hvb ▸ (val_eq_zero_iff rb hdb).mpr h0)
          refine ⟨pdiv ra rb, ?_, den_pdiv _ _ hda hnum, ?_⟩
          · simp only [evalNum, hra, hrb, if_neg hnum]
          · rw [val_pdiv, hva, hvb]
            exact Option.some_injective _ h
  | pow a k iha =>
    intro v h
    rw [mathValue] at h
    cases hma : mathValue a with
    | none => rw [hma] at h; simp at h
    | some x =>
      rw [hma] at h
      by_cases hc : x = 0 ∧ k < 0
      · simp [hc] at h
      · simp only [if_neg hc] at h
        obtain ⟨ra, hra, hda, hva⟩ := iha x hma
        have hc' : ¬(ra.num = 0 ∧ k < 0) := by
          rintro ⟨h0, hk⟩
          exact hc ⟨hva ▸ (val_eq_zero_iff ra hda).mpr h0, hk⟩
        refine ⟨pzpow ra k, ?_, ?_, ?_⟩
        · simp only [evalNum, hra, if_neg hc']
        · refine den_pzpow ra k hda ?_
          intro hk h0
          exact hc' ⟨h0, hk⟩
        · rw [val_pzpow, hva]
          exact Option.some_injective _ h
  | neg a iha =>
    intro v h
    rw [mathValue] at h
    cases hma : mathValue a with
    | none => rw [hma] at h; simp at h
    | some x =>
      rw [hma] at h
      obtain ⟨ra, hra, hda, hva⟩ := iha x hma
      refine ⟨pneg ra, ?_, hda, ?_⟩
      · simp only [evalNum, hra]
      · rw [val_pneg, hva]
        exact Option.some_injective _ h

theorem mathValue_none_of_hasVar : ∀ e : Expr, hasVar e = true → mathValue e = none := by
  intro e
  induction e with
  | num w => intro h; exact absurd h (by simp [hasVar])
  | var s => intro _; rfl
  | add a b iha ihb =>
    intro h
    rw [hasVar, Bool.or_eq_true] at h
    rw [mathValue]
    rcases h with h | h
    · rw [iha h]
    · cases mathValue a <;> rw [ihb h]
  | sub a b iha ihb =>
    intro h
    rw [hasVar, Bool.or_eq_true] at h
    rw [mathValue]
    rcases h with h | h
    · rw [iha h]
    · cases mathValue a <;> rw [ihb h]
  | mul a b iha ihb =>
    intro h
    rw [hasVar, Bool.or_eq_true] at h
    rw [mathValue]
    rcases h with h | h
    · rw [iha h]
    · cases mathValue a <;> rw [ihb h]
  | div a b iha ihb =>
    intro h
    rw [hasVar, Bool.or_eq_true] at h
    rw [mathValue]
    rcases h with h | h
    · rw [iha h]
    · cases mathValue a <;> rw [ihb h]
  | pow a k iha =>
    intro h
    rw [hasVar] at h
    rw [mathValue, iha h]
  | neg a iha =>
    intro h
    rw [hasVar] at h
    rw [mathValue, iha h]

/-- When parsing succeeds and the expression has a defined mathematical
value, `evaluate` returns text that parses back within relative tolerance
`10 ^ (-14)` of that value. -/
theorem evaluate_parses_back (s : String) (e : Expr) (v : ℚ)
    (hp : sympify s = .ok e) (hv : mathValue e = some v) :
    ∃ out q, ExpressionEvaluator.evaluate s = .ok out ∧
      parseDec out = some q ∧ |q - v| ≤ |v| / 10 ^ 14 := by
  have hnv : hasVar e = false := by
    by_contra h
    rw [Bool.not_eq_false] at h
    rw [mathValue_none_of_hasVar e h] at hv
    exact Option.noConfusion hv
  obtain ⟨r, hr, hden, hval⟩ := evalNum_sound e v hv
  obtain ⟨q, hq, hclose⟩ := parseDec_renderFloat r hden
  refine ⟨renderFloat r, q, ?_, hq, ?_⟩
  · simp only [ExpressionEvaluator.evaluate, hp, hnv, Bool.false_eq_true,
      if_false, hr]
  · rw [hval] at hclose
    exact hclose

/-- When parsing succeeds, there is no free variable, and numeric
evaluation fails, `evaluate` surfaces the evaluation error. -/
theorem evaluate_eval_error (s : String) (e : Expr) (err : EvalError)
    (hp : sympify s = .ok e) (hnv : hasVar e = false) (he : evalNum e = .error err) :
    ExpressionEvaluator.evaluate s = .error (.evaluation err) := by
  simp only [ExpressionEvaluator.evaluate, hp, hnv, Bool.false_eq_true, if_false, he]

/-- When parsing fails, `evaluate` surfaces the parse error. -/
theorem evaluate_parse_error (s msg : String) (hp : sympify s = .error msg) :
    ExpressionEvaluator.evaluate s = .error (.parse msg) := by
  simp only [ExpressionEvaluator.evaluate, hp]

/-- When the parsed expression contains a free variable, `evaluate` returns
the symbolic rendering rather than an error. -/
theorem evaluate_symbolic (s : String) (e : Expr) (hp : sympify s = .ok e)
    (hv : hasVar e = true) :
    ExpressionEvaluator.evaluate s = .ok (String.mk (renderSymbolic e)) := by
  simp only [ExpressionEvaluator.evaluate, hp, hv, if_true]

/-! ### Conversation memory

`AgentMemory` comes from the external `atomic_agents` library; its contract
is modelled from the spec (§4.4). -/

inductive Role
  | user
  | assistant
  deriving DecidableEq, Repr

structure Message where
  role : Role
  content : String
  tool_message : Option String := none
  tool_id : Option String := none
  deriving DecidableEq, Repr

structure AgentMemory where
  history : List Message
  deriving DecidableEq, Repr

namespace AgentMemory

/-- Modelled from the spec: `load` replaces the entire log ("replaceable
wholesale via a load operation that discards prior content"). -/
def load (_mem : AgentMemory) (msgs : List Message) : AgentMemory := ⟨msgs⟩

/-- Modelled from the spec: `append` adds one entry to the end; never
reorders or removes existing entries. -/
def append (mem : AgentMemory) (m : Message) : AgentMemory := ⟨mem.history ++ [m]⟩

/-- Modelled from the spec: read-only snapshot in insertion order. -/
def getHistory (mem : AgentMemory) : List Message := mem.history

end AgentMemory

/-- An operation on the conversation memory, for stating trace invariants. -/
inductive MemOp
  | load (msgs : List Message)
  | append (m : Message)
  deriving DecidableEq, Repr

def applyOp (mem : AgentMemory) : MemOp → AgentMemory
  | .load msgs => mem.load msgs
  | .append m => mem.append m

def runOps (mem : AgentMemory) (ops : List MemOp) : AgentMemory :=
  ops.foldl applyOp mem

/-! ### System prompt assembly

`SystemPromptGenerator` comes from the external `atomic_agents` library;
its rendering contract is modelled from the spec (§4.3). -/

structure SystemPromptContextProvider where
  title : String
  info : String
  deriving DecidableEq, Repr

structure SystemPromptInfo where
  background : List String
  steps : List String
  output_instructions : List String
  context_providers : List (String × SystemPromptContextProvider) := []
  deriving DecidableEq, Repr

/-- Modelled from the spec: `render` concatenates, in fixed order, the
background lines, step lines, output-instruction lines, then one produced
line per context provider in insertion order, each section labeled. -/
def generatePromptLines (info : SystemPromptInfo) : List String :=
  ["# IDENTITY and PURPOSE"] ++ info.background ++
    ["# INTERNAL ASSISTANT STEPS"] ++ info.steps ++
    ["# OUTPUT INSTRUCTIONS"] ++ info.output_instructions ++
    ["# EXTRA INFORMATION AND CONTEXT"] ++
    info.context_providers.map fun p => p.2.info

/-- The date context provider of the script, producing `Date: <timestamp>`
(the clock is external, so the timestamp text is a parameter). -/
def CurrentDateContextProvider (title timestamp : String) : SystemPromptContextProvider :=
  ⟨title, "Date: " ++ timestamp⟩

/-- The `system_prompt_info` object built by the script (source lines
22-54), including the registered date provider. -/
def system_prompt_info (timestamp : String) : SystemPromptInfo :=
  { background :=
      ["This assistant is a general-purpose AI designed to be helpful and friendly."]
    steps :=
      ["Understand the user input.", "Reason about the input.", "Respond to the user."]
    output_instructions :=
      ["Provide helpful and relevant information to assist the user.",
        "Be friendly and respectful in all conversations.",
        "Always use the available additional information and context to enhance the response"]
    context_providers :=
      [("date", CurrentDateContextProvider "Datetime Context Provider" timestamp)] }

/-- The seed message of the script (source lines 57-64). -/
def initial_memory_message : List Message :=
  [{ role := .assistant,
     content := "How do you do and what can I do for you today?",
     tool_message := some "no tool used",
     tool_id := none }]

/-! ### The chat loop and startup (from the script source) -/

def pyLowerChar (c : Char) : Char :=
  if 'A' ≤ c ∧ c ≤ 'Z' then Char.ofNat (c.toNat + 32) else c

/-- Python's `str.lower()` restricted to ASCII. -/
def pyLower (s : String) : String := ⟨s.data.map pyLowerChar⟩

/-- Python's `str.strip()` restricted to spaces: the "trimmed" form of an
input line. -/
def pyStrip (s : String) : String :=
  ⟨((s.data.dropWhile (· = ' ')).reverse.dropWhile (· = ' ')).reverse⟩

/-- The exit tokens of the chat loop (source line 98). -/
def exitTokens : List String := ["/exit", "/quit"]

structure TransportError where
  msg : String
  deriving DecidableEq, Repr

structure ScriptState where
  memory : AgentMemory
  printed : List String
  submitCalls : Nat
  deriving DecidableEq, Repr

inductive TurnResult
  | exited
  | continued
  | crashed (err : String)
  deriving DecidableEq, Repr

/-- One iteration of the script's `while True` chat loop (source lines
96-103).  The remote model call inside `agent.run` is the external
`transport` parameter; per the spec (§4.5) `agent.run` appends the user
message to memory, invokes the client, and appends the assistant reply on
success.  The loop has no exception handler: a `TransportError` raised by
the call propagates (`crashed`). -/
def loopStep (transport : String → Except TransportError String)
    (st : ScriptState) (userInput : String) : ScriptState × TurnResult :=
  if pyLower userInput ∈ exitTokens then
    ({ st with printed := st.printed ++ ["Exiting chat, see you later ..."] }, .exited)
  else
    let mem1 := st.memory.append { role := .user, content := userInput }
    match transport userInput with
    | .error e =>
      ({ st with memory := mem1, submitCalls := st.submitCalls + 1 }, .crashed e.msg)
    | .ok reply =>
      ({ st with
          memory := mem1.append { role := .assistant, content := reply },
          printed := st.printed ++ ["Agent: " ++ reply],
          submitCalls := st.submitCalls + 1 }, .continued)

inductive LoopOutcome
  | exitedOk
  | crashed (err : String)
  | exhausted
  deriving DecidableEq, Repr

/-- Run the chat loop over a list of input lines. -/
def runLoop (transport : String → Except TransportError String) :
    ScriptState → List String → ScriptState × LoopOutcome
  | st, [] => (st, .exhausted)
  | st, i :: rest =>
    match loopStep transport st i with
    | (st2, .exited) => (st2, .exitedOk)
    | (st2, .continued) => runLoop transport st2 rest
    | (st2, .crashed e) => (st2, .crashed e)

/-- The `ValueError` message raised when no API key is available (source
lines 73-76). -/
def apiKeyErrorMessage : String :=
  "API key is not set. Please set the API key as a static variable or in an environment variable."

/-- The API-key resolution of the script (source lines 69-76): the static
`API_KEY` string, falling back to the environment variable when the static
value is falsy; `none` when the result is falsy (unset or empty). -/
def resolveApiKey (staticKey : String) (envKey : Option String) : Option String :=
  match (if staticKey = "" then envKey else some staticKey) with
  | none => none
  | some v => if v = "" then none else some v

/-- The state right after successful startup: memory seeded via `load`,
greeting printed (source lines 65-94). -/
def startedState : ScriptState :=
  { memory := (AgentMemory.mk []).load initial_memory_message
    printed := ["Agent: How do you do and what can I do for you today?"]
    submitCalls := 0 }

structure ScriptRun where
  printed : List String
  exitCode : Nat
  error : Option String
  finalMemory : Option AgentMemory
  deriving DecidableEq, Repr

/-- The whole script: seed memory, resolve the API key (raising `ValueError`
before anything is printed when it is missing), print the greeting, then run
the chat loop over the given console inputs.  An uncaught exception makes
the Python process exit with status 1; `/exit` and `/quit` break the loop
and exit with status 0; end of input makes `input()` raise `EOFError`. -/
def runScript (staticKey : String) (envKey : Option String)
    (transport : String → Except TransportError String) (inputs : List String) :
    ScriptRun :=
  match resolveApiKey staticKey envKey with
  | none => { printed := [], exitCode := 1, error := some apiKeyErrorMessage,
              finalMemory := none }
  | some _ =>
    match runLoop transport startedState inputs with
    | (st, .exitedOk) =>
      { printed := st.printed, exitCode := 0, error := none,
        finalMemory := some st.memory }
    | (st, .crashed e) =>
      { printed := st.printed, exitCode := 1, error := some e,
        finalMemory := some st.memory }
    | (st, .exhausted) =>
      { printed := st.printed, exitCode := 1, error := some "EOFError",
        finalMemory := some st.memory }

/-! ### Trace lemmas for the memory invariant -/

theorem runOps_append_ne_nil : ∀ (ops : List MemOp) (mem : AgentMemory),
    (∀ op ∈ ops, ∃ m, op = MemOp.append m) → mem.history ≠ [] →
    (runOps mem ops).getHistory ≠ [] := by
  intro ops
  induction ops with
  | nil => intro mem _ h; exact h
  | cons op ops ih =>
    intro mem hall h
    obtain ⟨m, rfl⟩ := hall op (by simp)
    show (runOps (applyOp mem (.append m)) ops).getHistory ≠ []
    apply ih _ (fun o ho => hall o (by simp [ho]))
    show mem.history ++ [m] ≠ []
    simp

theorem runOps_take_mono : ∀ (rest : List MemOp) (mem : AgentMemory) (k : Nat),
    (∀ op ∈ rest, ∃ m, op = MemOp.append m) →
    (runOps mem (rest.take k)).getHistory.length ≤
      (runOps mem (rest.take (k + 1))).getHistory.length := by
  intro rest
  induction rest with
  | nil => intro mem k _; simp [runOps]
  | cons op ops ih =>
    intro mem k hall
    cases k with
    | zero =>
      obtain ⟨m, rfl⟩ := hall op (by simp)
      show mem.history.length ≤ (mem.history ++ [m]).length
      simp
    | succ k =>
      show (runOps (applyOp mem op) (ops.take k)).getHistory.length ≤
        (runOps (applyOp mem op) (ops.take (k + 1))).getHistory.length
      exact ih (applyOp mem op) k (fun o ho => hall o (by simp [ho]))

/-! ### The claims -/

/-- Claim C1: for every syntactically valid arithmetic expression text `e`
with a defined mathematical value, `ExpressionEvaluator.evaluate`
(`CalculatorTool.run`) returns a text value that parses back to a number
equal, within floating tolerance, to the mathematical value of `e`; in
particular `evaluate "2 + 2"` returns `"4.00000000000000"`. -/
theorem claim_C1 :
    (∀ (s : String) (e : Expr) (v : ℚ), sympify s = .ok e → mathValue e = some v →
      ∃ out q, ExpressionEvaluator.evaluate s = .ok out ∧
        parseDec out = some q ∧ |q - v| ≤ |v| / 10 ^ 14) ∧
    ExpressionEvaluator.evaluate "2 + 2" = .ok "4.00000000000000" ∧
    CalculatorTool.run ⟨"2 + 2"⟩ = .ok ⟨"4.00000000000000"⟩ :=
  ⟨evaluate_parses_back, by decide, by decide⟩

/-- Witness for C1 at the concrete input `"2 + 2"` (value `4`). -/
theorem claim_C1_witness :
    ∃ out q, ExpressionEvaluator.evaluate "2 + 2" = .ok out ∧
      parseDec out = some q ∧ |q - (4 : ℚ)| ≤ |(4 : ℚ)| / 10 ^ 14 :=
  claim_C1.1 "2 + 2" (Expr.add (Expr.num ⟨2, 1⟩) (Expr.num ⟨2, 1⟩)) 4
    (by decide) (by norm_num [mathValue, val])

/-- Claim C2: `evaluate "1/0"` fails with an evaluation error; in general,
whenever numeric evaluation encounters an undefined operation such as
division by zero, `evaluate` surfaces the error to the caller rather than
returning a result string. -/
theorem claim_C2 :
    ExpressionEvaluator.evaluate "1/0" = .error (.evaluation .divisionByZero) ∧
    (∀ (s : String) (e : Expr) (err : EvalError), sympify s = .ok e →
      hasVar e = false → evalNum e = .error err →
      ExpressionEvaluator.evaluate s = .error (.evaluation err)) :=
  ⟨by decide, evaluate_eval_error⟩

/-- Witness for C2 at the concrete input `"1/0"`. -/
theorem claim_C2_witness :
    ExpressionEvaluator.evaluate "1/0" = .error (.evaluation .divisionByZero) :=
  claim_C2.2 "1/0" (Expr.div (Expr.num ⟨1, 1⟩) (Expr.num ⟨0, 1⟩)) .divisionByZero
    (by decide) (by decide) (by decide)

/-- Claim C3, original statement refuted: the code lowercases the input but
does NOT trim it.  The input `" /exit"` (leading space) has trimmed,
case-insensitive form `"/exit"`, yet the loop does not terminate on it and
does invoke the agent (`submitCalls` becomes 1). -/
theorem claim_C3_counterexample :
    pyLower (pyStrip " /exit") ∈ exitTokens ∧
    (loopStep (fun _ => .ok "hi") startedState " /exit").2 = .continued ∧
    (loopStep (fun _ => .ok "hi") startedState " /exit").1.submitCalls = 1 := by
  decide

/-- Claim C3 as amended: for every input line whose lowercased form (no
trimming) equals `/exit` or `/quit` (e.g. `/EXIT`), the chat loop
terminates with exit status 0 without invoking `AgentSession.submit` on
that input. -/
theorem claim_C3_amended :
    (∀ (transport : String → Except TransportError String) (st : ScriptState)
        (input : String), pyLower input ∈ exitTokens →
      (loopStep transport st input).2 = .exited ∧
      (loopStep transport st input).1.submitCalls = st.submitCalls ∧
      (loopStep transport st input).1.memory = st.memory) ∧
    (∀ (staticKey : String) (envKey : Option String)
        (transport : String → Except TransportError String) (input : String)
        (rest : List String), resolveApiKey staticKey envKey ≠ none →
      pyLower input ∈ exitTokens →
      (runScript staticKey envKey transport (input :: rest)).exitCode = 0) := by
  constructor
  · intro transport st input h
    refine ⟨?_, ?_, ?_⟩ <;> simp [loopStep, h]
  · intro sk ek transport input rest hk h
    unfold runScript
    cases hres : resolveApiKey sk ek with
    | none => exact absurd hres hk
    | some k =>
      have hstep : loopStep transport startedState input =
          ({ startedState with
              printed := startedState.printed ++ ["Exiting chat, see you later ..."] },
            .exited) := by
        simp [loopStep, h]
      show (match runLoop transport startedState (input :: rest) with
        | (st, .exitedOk) =>
          ({ printed := st.printed, exitCode := 0, error := none,
             finalMemory := some st.memory } : ScriptRun)
        | (st, .crashed e) =>
          { printed := st.printed, exitCode := 1, error := some e,
            finalMemory := some st.memory }
        | (st, .exhausted) =>
          { printed := st.printed, exitCode := 1, error := some "EOFError",
            finalMemory := some st.memory }).exitCode = 0
      rw [runLoop, hstep]

/-- Witness for the amended C3 at the concrete input `"/EXIT"`. -/
theorem claim_C3_witness :
    ((loopStep (fun _ => .ok "hi") startedState "/EXIT").2 = .exited ∧
      (loopStep (fun _ => .ok "hi") startedState "/EXIT").1.submitCalls =
        startedState.submitCalls ∧
      (loopStep (fun _ => .ok "hi") startedState "/EXIT").1.memory =
        startedState.memory) ∧
    (runScript "sk-test" none (fun _ => .ok "hi") ["/EXIT"]).exitCode = 0 :=
  ⟨claim_C3_amended.1 (fun _ => .ok "hi") startedState "/EXIT" (by decide),
    claim_C3_amended.2 "sk-test" none (fun _ => .ok "hi") "/EXIT" [] (by decide)
      (by decide)⟩

/-- Claim C4, original statement refuted: the loop body has no exception
handler, so a `TransportError` raised inside `agent.run` is NOT caught: the
turn crashes instead of returning to input, and the process terminates with
exit status 1 (the session IS terminated by a per-turn error).  The second
queued input is never submitted. -/
theorem claim_C4_counterexample :
    (loopStep (fun _ => .error ⟨"connection failed"⟩) startedState "hello").2 =
      .crashed "connection failed" ∧
    (runScript "sk-test" none (fun _ => .error ⟨"connection failed"⟩)
        ["hello", "again"]).exitCode = 1 ∧
    (runScript "sk-test" none (fun _ => .error ⟨"connection failed"⟩)
        ["hello", "again"]).error = some "connection failed" ∧
    (runScript "sk-test" none (fun _ => .error ⟨"connection failed"⟩)
        ["hello", "again"]).finalMemory =
      some ⟨initial_memory_message ++ [{ role := .user, content := "hello" }]⟩ := by
  decide

/-- Claim C4 as amended: a `TransportError` raised during submit is not
caught by the chat loop: it propagates and terminates the session (the loop
does not return to awaiting input); at that point the conversation memory
contains the appended user message but no spurious assistant message, and
nothing further is printed. -/
theorem claim_C4_amended :
    ∀ (transport : String → Except TransportError String) (st : ScriptState)
      (input : String) (err : TransportError) (rest : List String),
      pyLower input ∉ exitTokens → transport input = .error err →
      (loopStep transport st input).2 = .crashed err.msg ∧
      (loopStep transport st input).1.memory.getHistory =
        st.memory.getHistory ++ [{ role := .user, content := input }] ∧
      (loopStep transport st input).1.printed = st.printed ∧
      (runLoop transport st (input :: rest)).2 = .crashed err.msg := by
  intro transport st input err rest hne htr
  have hstep : loopStep transport st input =
      ({ st with
          memory := st.memory.append ({ role := .user, content := input } : Message),
          submitCalls := st.submitCalls + 1 }, .crashed err.msg) := by
    simp [loopStep, hne, htr]
  refine ⟨?_, ?_, ?_, ?_⟩
  · rw [hstep]
  · rw [hstep]
    rfl
  · rw [hstep]
  · rw [runLoop, hstep]

/-- Witness for the amended C4 at the concrete input `"hello"` with a
failing transport. -/
theorem claim_C4_witness :
    (loopStep (fun _ => .error ⟨"connection failed"⟩) startedState "hello").2 =
      .crashed "connection failed" ∧
    (loopStep (fun _ => .error ⟨"connection failed"⟩) startedState
        "hello").1.memory.getHistory =
      startedState.memory.getHistory ++ [{ role := .user, content := "hello" }] ∧
    (loopStep (fun _ => .error ⟨"connection failed"⟩) startedState
        "hello").1.printed = startedState.printed ∧
    (runLoop (fun _ => .error ⟨"connection failed"⟩) startedState ["hello"]).2 =
      .crashed "connection failed" :=
  claim_C4_amended (fun _ => .error ⟨"connection failed"⟩) startedState "hello"
    ⟨"connection failed"⟩ [] (by decide) (by decide)

/-- Claim C5: when the credential environment variable is unset or empty
and the static override is empty, startup fails with the `ValueError`
message "API key is not set..." before the greeting is printed (nothing is
printed at all), and the process exits with a non-zero status. -/
theorem claim_C5 :
    ∀ (envKey : Option String) (transport : String → Except TransportError String)
      (inputs : List String), envKey = none ∨ envKey = some "" →
      (runScript "" envKey transport inputs).error = some apiKeyErrorMessage ∧
      (runScript "" envKey transport inputs).printed = [] ∧
      (runScript "" envKey transport inputs).exitCode ≠ 0 := by
  intro ek transport inputs h
  have hres : resolveApiKey "" ek = none := by
    rcases h with rfl | rfl <;> rfl
  unfold runScript
  rw [hres]
  exact ⟨rfl, rfl, Nat.one_ne_zero⟩

/-- Witness for C5 with the environment variable unset. -/
theorem claim_C5_witness :
    (runScript "" none (fun _ => .ok "hi") ["hello"]).error =
      some apiKeyErrorMessage ∧
    (runScript "" none (fun _ => .ok "hi") ["hello"]).printed = [] ∧
    (runScript "" none (fun _ => .ok "hi") ["hello"]).exitCode ≠ 0 :=
  claim_C5 none (fun _ => .ok "hi") ["hello"] (Or.inl rfl)

/-- Claim C6: `evaluate "2 +"` fails with a parse error; in general, for
every input text on which parsing fails, `evaluate` surfaces the parse
error to the caller rather than returning a result string. -/
theorem claim_C6 :
    ExpressionEvaluator.evaluate "2 +" =
      .error (.parse "expected a number, variable or parenthesized expression") ∧
    (∀ s msg : String, sympify s = .error msg →
      ExpressionEvaluator.evaluate s = .error (.parse msg)) :=
  ⟨by decide, evaluate_parse_error⟩

/-- Witness for C6 at the concrete input `"2 +"`. -/
theorem claim_C6_witness :
    ExpressionEvaluator.evaluate "2 +" =
      .error (.parse "expected a number, variable or parenthesized expression") :=
  claim_C6.2 "2 +" "expected a number, variable or parenthesized expression"
    (by decide)

/-- Claim C7: `load [m]` followed by `history` returns exactly `[m]`; a
subsequent `append m2` makes `history` return `[m, m2]`; in general `load`
installs exactly the given sequence and `append` adds one entry at the end,
never reordering or dropping entries. -/
theorem claim_C7 :
    ∀ (mem : AgentMemory) (m m2 : Message),
      ((mem.load [m]).getHistory = [m]) ∧
      (((mem.load [m]).append m2).getHistory = [m, m2]) ∧
      (∀ msgs, (mem.load msgs).getHistory = msgs) ∧
      (∀ m3, (mem.append m3).getHistory = mem.getHistory ++ [m3]) :=
  fun _ _ _ => ⟨rfl, rfl, fun _ => rfl, fun _ => rfl⟩

/-- Claim C8, original statement refuted: `load` replaces the whole log, so
a second `load` with an empty list leaves the memory empty even though
`load` has been called before, and the length drops from 1 to 0 (not
monotonically non-decreasing). -/
theorem claim_C8_counterexample :
    (runOps ⟨[]⟩ [MemOp.load initial_memory_message]).getHistory.length = 1 ∧
    (runOps ⟨[]⟩ [MemOp.load initial_memory_message,
        MemOp.load []]).getHistory = [] := by
  decide

/-- Claim C8 as amended: after a `load` of a nonempty sequence, as long as
every subsequent operation is an `append` (as in this program, where `load`
is used exactly once at startup to seed the greeting), the sequence is
never empty and its length is monotonically non-decreasing. -/
theorem claim_C8_amended :
    ∀ (seed : List Message) (rest : List MemOp), seed ≠ [] →
      (∀ op ∈ rest, ∃ m, op = MemOp.append m) →
      (∀ k, (runOps ⟨[]⟩ (MemOp.load seed :: rest.take k)).getHistory ≠ []) ∧
      (∀ k, (runOps ⟨[]⟩ (MemOp.load seed :: rest.take k)).getHistory.length ≤
          (runOps ⟨[]⟩ (MemOp.load seed :: rest.take (k + 1))).getHistory.length) := by
  intro seed rest hseed happ
  constructor
  · intro k
    show (runOps (AgentMemory.mk seed) (rest.take k)).getHistory ≠ []
    exact runOps_append_ne_nil (rest.take k) ⟨seed⟩
      (fun op ho => happ op (List.take_subset k rest ho)) hseed
  · intro k
    show (runOps (AgentMemory.mk seed) (rest.take k)).getHistory.length ≤
      (runOps (AgentMemory.mk seed) (rest.take (k + 1))).getHistory.length
    exact runOps_take_mono rest ⟨seed⟩ k happ

/-- Witness for the amended C8 with the script's seed and one append. -/
theorem claim_C8_witness :
    (runOps ⟨[]⟩ (MemOp.load initial_memory_message ::
        ([MemOp.append { role := .user, content := "hi" }]).take 1)).getHistory ≠ [] ∧
    (runOps ⟨[]⟩ (MemOp.load initial_memory_message ::
        ([MemOp.append { role := .user, content := "hi" }]).take 0)).getHistory.length ≤
      (runOps ⟨[]⟩ (MemOp.load initial_memory_message ::
        ([MemOp.append { role := .user, content := "hi" }]).take 1)).getHistory.length := by
  have h := claim_C8_amended initial_memory_message
    [MemOp.append { role := .user, content := "hi" }] (by decide)
    (fun op ho => ⟨{ role := .user, content := "hi" }, by simpa using ho⟩)
  exact ⟨h.1 1, h.2 0⟩

/-- Claim C9: the rendered system prompt contains every background line,
every step line, and every output-instruction line verbatim, plus exactly
one produced line per registered context provider, with providers appearing
in registration (insertion) order. -/
theorem claim_C9 :
    ∀ (info : SystemPromptInfo),
      (∀ l ∈ info.background, l ∈ generatePromptLines info) ∧
      (∀ l ∈ info.steps, l ∈ generatePromptLines info) ∧
      (∀ l ∈ info.output_instructions, l ∈ generatePromptLines info) ∧
      ∃ pre, generatePromptLines info =
        pre ++ info.context_providers.map fun p => p.2.info := by
  intro info
  refine ⟨?_, ?_, ?_, ⟨_, rfl⟩⟩ <;>
    · intro l hl
      simp [generatePromptLines]
      tauto

/-- Witness for C9 at the script's concrete prompt data and a fixed
timestamp. -/
theorem claim_C9_witness :
    ("This assistant is a general-purpose AI designed to be helpful and friendly." ∈
      generatePromptLines (system_prompt_info "2024-06-01 12:00:00")) ∧
    ∃ pre, generatePromptLines (system_prompt_info "2024-06-01 12:00:00") =
      pre ++ ["Date: 2024-06-01 12:00:00"] := by
  have h := claim_C9 (system_prompt_info "2024-06-01 12:00:00")
  refine ⟨h.1 _ (by decide), ?_⟩
  obtain ⟨pre, hpre⟩ := h.2.2.2
  refine ⟨pre, ?_⟩
  rw [hpre]
  exact congrArg (pre ++ ·) (by decide)

/-- Claim C10: `evaluate` accepts expressions containing free symbolic
variables (e.g. `"x + 1"`): it does not reject them as invalid, and returns
the textual rendering of the partially evaluated symbolic expression rather
than a purely numeric value or an error. -/
theorem claim_C10 :
    (∀ (s : String) (e : Expr), sympify s = .ok e → hasVar e = true →
      ExpressionEvaluator.evaluate s = .ok (String.mk (renderSymbolic e))) ∧
    ExpressionEvaluator.evaluate "x + 1" = .ok "x + 1.00000000000000" ∧
    parseDec "x + 1.00000000000000" = none :=
  ⟨evaluate_symbolic, by decide, by decide⟩

/-- Witness for C10 at the concrete input `"x + 1"`. -/
theorem claim_C10_witness :
    ExpressionEvaluator.evaluate "x + 1" =
      .ok (String.mk (renderSymbolic
        (Expr.add (Expr.var ['x']) (Expr.num ⟨1, 1⟩)))) :=
  claim_C10.1 "x + 1" (Expr.add (Expr.var ['x']) (Expr.num ⟨1, 1⟩))
    (by decide) (by decide)

end AtomicDemo
